import Mathlib

set_option linter.unusedSectionVars false
set_option linter.unusedVariables false

/-!
LRU cache engine (`lruCache.h`): embedding and verification.

The engine keeps its entries in a doubly linked list of heap nodes bounded by
two sentinel nodes, together with a hash index from keys to nodes.  The
embedding keeps this shape: nodes live in an arena (a list of nodes addressed
by position), `next_` and `prev_` are optional addresses, and every private
member function of `LruCache` is a function on the arena state.  Dereferencing
a null or dangling pointer yields `none`.  The mutex takes no part in the
sequential semantics; the order in which the public member functions take and
release it is described separately, by lists of events.
-/

namespace myCache

/-! ## Data model -/

/-- The class `LruNode<K, V>`: key, value, access counter, a weak pointer to the
previous node and an owning pointer to the next node (`none` is the null
pointer). -/
structure LruNode (K V : Type) where
  key_ : K
  value_ : V
  accessCount_ : Nat
  prev_ : Option Nat
  next_ : Option Nat
deriving DecidableEq, Repr

/-- The arena of allocated nodes; an address is a position in it. -/
abbrev Heap (K V : Type) := List (LruNode K V)

/-- The data members of `LruCache<K, V>` (without `mutex_`), plus the arena the
node pointers point into.  `nodeMap_` is the `unordered_map` from keys to node
pointers, kept as an association list whose order carries no meaning. -/
structure LruCache (K V : Type) where
  capacity_ : Int
  nodeMap_ : List (K × Nat)
  heap : Heap K V
  dummyHead_ : Nat
  dummyTail_ : Nat
deriving DecidableEq, Repr

section Defs

variable {K V : Type}

/-- The constructor `LruNode(K key, V value)`: access count 1, both links null. -/
def LruNode.new (key : K) (value : V) : LruNode K V :=
  { key_ := key, value_ := value, accessCount_ := 1, prev_ := none, next_ := none }

/-- The call `std::make_shared<LruNodeType>(key, value)`: a new node at a fresh address. -/
def alloc (h : Heap K V) (key : K) (value : V) : Heap K V × Nat :=
  (h ++ [LruNode.new key value], h.length)

/-- Reading `a->next_`; `none` also when `a` is not an allocated node. -/
def nextOf (h : Heap K V) (a : Nat) : Option Nat := (h[a]?).bind (fun n => n.next_)

/-- Reading `a->prev_`; `none` also when `a` is not an allocated node. -/
def prevOf (h : Heap K V) (a : Nat) : Option Nat := (h[a]?).bind (fun n => n.prev_)

/-- Reading `a->getKey()`. -/
def keyOf (h : Heap K V) (a : Nat) : Option K := (h[a]?).map (fun n => n.key_)

/-- Reading `a->getAccessCount()`. -/
def countOf (h : Heap K V) (a : Nat) : Option Nat := (h[a]?).map (fun n => n.accessCount_)

/-- Reading `a->getValue()`. -/
def valueOf (h : Heap K V) (a : Nat) : Option V := (h[a]?).map (fun n => n.value_)

/-- The store `a->next_ = p`. -/
def setNext (h : Heap K V) (a : Nat) (p : Option Nat) : Option (Heap K V) :=
  match h[a]? with
  | none => none
  | some n => some (h.set a { n with next_ := p })

/-- The store `a->prev_ = p`. -/
def setPrev (h : Heap K V) (a : Nat) (p : Option Nat) : Option (Heap K V) :=
  match h[a]? with
  | none => none
  | some n => some (h.set a { n with prev_ := p })

/-- The call `a->setValue(value)`. -/
def setValue (h : Heap K V) (a : Nat) (value : V) : Option (Heap K V) :=
  match h[a]? with
  | none => none
  | some n => some (h.set a { n with value_ := value })

/-- The nodes met from `a` along the owning `next_` pointers, `a` included. -/
def walk (h : Heap K V) : Nat → Nat → List Nat
  | 0, _ => []
  | fuel + 1, a =>
    match h[a]? with
    | none => []
    | some n =>
      a :: (match n.next_ with
            | none => []
            | some b => walk h fuel b)

/-- A node is alive while some `shared_ptr` owns it: it is reachable along
`next_` from a member pointer of the cache, from a pointer stored in the index,
or from a local pointer of the running member function. -/
def owned (s : LruCache K V) (locals : List Nat) (a : Nat) : Bool :=
  (s.dummyHead_ :: s.dummyTail_ :: (locals ++ s.nodeMap_.map (fun e => e.2))).any
    (fun r => decide (a ∈ walk s.heap s.heap.length r))

/-- The call `p.expired()` on a `weak_ptr`: null, or the node it referred to is
owned by no `shared_ptr` any more. -/
def expired (s : LruCache K V) (locals : List Nat) (p : Option Nat) : Bool :=
  match p with
  | none => true
  | some a => !(owned s locals a)

/-- The call `p.lock()` on a `weak_ptr`: the null pointer when `p` is expired. -/
def lock (s : LruCache K V) (locals : List Nat) (p : Option Nat) : Option Nat :=
  if expired s locals p then none else p

/-- The call `nodeMap_.find(key)`; `none` is `nodeMap_.end()`. -/
def mapFind [DecidableEq K] : List (K × Nat) → K → Option Nat
  | [], _ => none
  | e :: m, key => if e.1 = key then some e.2 else mapFind m key

/-- The call `nodeMap_.erase(key)`. -/
def mapErase [DecidableEq K] (m : List (K × Nat)) (key : K) : List (K × Nat) :=
  m.filter (fun e => decide (e.1 ≠ key))

/-- The store `nodeMap_[key] = node`. -/
def mapAssign [DecidableEq K] (m : List (K × Nat)) (key : K) (node : Nat) : List (K × Nat) :=
  (key, node) :: mapErase m key

/-- Width of `size_t` in bits. -/
def SIZE_BITS : Nat := 64

/-- Least value of `int`. -/
def INT_MIN : Int := -2147483648

/-- Greatest value of `int`. -/
def INT_MAX : Int := 2147483647

/-- Conversion of an `int` to `size_t`: reduction modulo `2 ^ SIZE_BITS`. -/
def toSizeT (i : Int) : Nat := (i % (2 : Int) ^ SIZE_BITS).toNat

/-- The test `nodeMap_.size() >= capacity_`, comparing a `size_t` with an `int`
converted to `size_t`. -/
def sizeGeCapacity (size : Nat) (capacity : Int) : Bool :=
  decide (toSizeT capacity ≤ size % 2 ^ SIZE_BITS)

/-! ## Private member functions -/

/-- The member function `initializeList`, run on the members of a cache under construction. -/
def initializeList (capacity : Int) [Inhabited K] [Inhabited V] : Option (LruCache K V) := do
  let (h1, hd) := alloc ([] : Heap K V) default default
  let (h2, tl) := alloc h1 default default
  let h3 ← setNext h2 hd (some tl)
  let h4 ← setPrev h3 tl (some hd)
  some { capacity_ := capacity, nodeMap_ := [], heap := h4, dummyHead_ := hd, dummyTail_ := tl }

/-- The member function `updateExisitingNode`. -/
def updateExisitingNode (s : LruCache K V) (node : Nat) (value : V) : Option (LruCache K V) := do
  let h ← setValue s.heap node value
  some { s with heap := h }

/-- The member function `removeNode`. -/
def removeNode (s : LruCache K V) (node : Nat) : Option (LruCache K V) := do
  let _ ← s.heap[node]?
  if !(expired s [node] (prevOf s.heap node)) && (nextOf s.heap node).isSome then
    let prev ← lock s [node] (prevOf s.heap node)
    let h1 ← setNext s.heap prev (nextOf s.heap node)
    let nx ← nextOf h1 node
    let h2 ← setPrev h1 nx (some prev)
    let h3 ← setNext h2 node none
    some { s with heap := h3 }
  else
    some s

/-- The member function `insertNode`. -/
def insertNode (s : LruCache K V) (node : Nat) : Option (LruCache K V) := do
  let h1 ← setNext s.heap node (some s.dummyTail_)
  let _ ← h1[s.dummyTail_]?
  let h2 ← setPrev h1 node (prevOf h1 s.dummyTail_)
  let _ ← h2[s.dummyTail_]?
  let p ← lock { s with heap := h2 } [node] (prevOf h2 s.dummyTail_)
  let h3 ← setNext h2 p (some node)
  let h4 ← setPrev h3 s.dummyTail_ (some node)
  some { s with heap := h4 }

/-- The member function `moveToMostRecent`. -/
def moveToMostRecent (s : LruCache K V) (node : Nat) : Option (LruCache K V) := do
  let s1 ← removeNode s node
  insertNode s1 node

/-- The member function `evictLeastRecent`. -/
def evictLeastRecent [DecidableEq K] (s : LruCache K V) : Option (LruCache K V) := do
  let leastRecent ← nextOf s.heap s.dummyHead_
  let s1 ← removeNode s leastRecent
  let key ← keyOf s1.heap leastRecent
  some { s1 with nodeMap_ := mapErase s1.nodeMap_ key }

/-- The member function `addNewNode`. -/
def addNewNode [DecidableEq K] (s : LruCache K V) (key : K) (value : V) :
    Option (LruCache K V) := do
  let s1 ← if sizeGeCapacity s.nodeMap_.length s.capacity_ then evictLeastRecent s else some s
  let (h, newNode) := alloc s1.heap key value
  let s2 ← insertNode { s1 with heap := h } newNode
  some { s2 with nodeMap_ := mapAssign s2.nodeMap_ key newNode }

/-! ## Public member functions -/

/-- The constructor `LruCache(int capacity)`. -/
def LruCache.new [Inhabited K] [Inhabited V] (capacity : Int) : Option (LruCache K V) :=
  initializeList capacity

/-- The member function `set`. -/
def set [DecidableEq K] (s : LruCache K V) (key : K) (value : V) : Option (LruCache K V) :=
  if s.capacity_ ≤ 0 then some s
  else
    match mapFind s.nodeMap_ key with
    | some node => updateExisitingNode s node value
    | none => addNewNode s key value

/-- The member function `get(K key, V& value)`: the new state, the returned flag
and the content of `value` after the call. -/
def get [DecidableEq K] (s : LruCache K V) (key : K) (value : V) :
    Option (LruCache K V × Bool × V) :=
  match mapFind s.nodeMap_ key with
  | some node => do
    let s1 ← moveToMostRecent s node
    let v ← valueOf s1.heap node
    some (s1, true, v)
  | none => some (s, false, value)

/-- The member function `get(K key)`: the new state and the returned value. -/
def get1 [DecidableEq K] [Inhabited V] (s : LruCache K V) (key : K) :
    Option (LruCache K V × V) := do
  let value : V := default
  let (s1, _, value1) ← get s key value
  some (s1, value1)

/-- The member function `remove`. -/
def remove [DecidableEq K] (s : LruCache K V) (key : K) : Option (LruCache K V) :=
  match mapFind s.nodeMap_ key with
  | some node => do
    let s1 ← removeNode s node
    some { s1 with nodeMap_ := mapErase s1.nodeMap_ key }
  | none => some s

/-! ## Observations -/

/-- The nodes strictly between the two sentinels, from the head end to the tail end. -/
def order (s : LruCache K V) : List Nat :=
  ((walk s.heap s.heap.length s.dummyHead_).drop 1).takeWhile (fun a => decide (a ≠ s.dummyTail_))

/-- The association carried by the node at an address. -/
def entryOf (h : Heap K V) (a : Nat) : Option (K × V) :=
  (h[a]?).map (fun n => (n.key_, n.value_))

/-- The recency ordering as the list of cached associations, least recently used first. -/
def entries (s : LruCache K V) : List (K × V) :=
  (order s).filterMap (entryOf s.heap)

/-- The keys of the index. -/
def keys (s : LruCache K V) : List K := s.nodeMap_.map (fun e => e.1)

/-- The call `nodeMap_.size()`. -/
def size (s : LruCache K V) : Nat := s.nodeMap_.length

/-- The value stored for a key: the value of the node the index holds for it. -/
def stored [DecidableEq K] (s : LruCache K V) (key : K) : Option V :=
  (mapFind s.nodeMap_ key).bind (valueOf s.heap)

/-- A call of a public member function. -/
inductive Call (K V : Type) where
  | set (key : K) (value : V)
  | get (key : K) (value : V)
  | get1 (key : K)
  | remove (key : K)
deriving DecidableEq, Repr

/-- One call applied to a state. -/
def step [DecidableEq K] [Inhabited V] (s : LruCache K V) : Call K V → Option (LruCache K V)
  | .set key value => set s key value
  | .get key value => (get s key value).map (fun r => r.1)
  | .get1 key => (get1 s key).map (fun r => r.1)
  | .remove key => remove s key

/-- A sequence of calls applied to a state, in order. -/
def run [DecidableEq K] [Inhabited V] (s : LruCache K V) : List (Call K V) → Option (LruCache K V)
  | [] => some s
  | c :: cs => (step s c).bind (fun s1 => run s1 cs)

/-- A sequence of calls applied to a freshly constructed cache. -/
def runFresh [DecidableEq K] [Inhabited K] [Inhabited V] (capacity : Int)
    (cs : List (Call K V)) : Option (LruCache K V) :=
  (LruCache.new capacity).bind (fun s => run s cs)

/-! ## Invariants -/

/-- Two arenas with the same nodes up to their link fields. -/
structure SameData (h h1 : Heap K V) : Prop where
  length_eq : h1.length = h.length
  key_eq : ∀ b, keyOf h1 b = keyOf h b
  value_eq : ∀ b, valueOf h1 b = valueOf h b
  count_eq : ∀ b, countOf h1 b = countOf h b

/-- The nodes `a, l₀, l₁, …` are chained in this order: each one's `next_` is the
following node and each one's `prev_` is the preceding node. -/
def Linked (h : Heap K V) : Nat → List Nat → Prop
  | _, [] => True
  | a, b :: l => nextOf h a = some b ∧ prevOf h b = some a ∧ Linked h b l

/-- Shape of the list: head sentinel, the nodes `l`, tail sentinel, all distinct,
chained in this order, with a null `next_` at the tail sentinel. -/
structure ListInv (h : Heap K V) (hd tl : Nat) (l : List Nat) : Prop where
  nodup : (hd :: (l ++ [tl])).Nodup
  linked : Linked h hd (l ++ [tl])
  tailNext : nextOf h tl = none

/-- Representation invariant: the list between the sentinels is `l`, the index
holds exactly the pairs of a key and the node of `l` carrying it, no key occurs
twice, the capacity is a value of `int`, and at most `max capacity_ 0` entries
are held. -/
structure Inv (s : LruCache K V) (l : List Nat) : Prop where
  list : ListInv s.heap s.dummyHead_ s.dummyTail_ l
  index : ∀ k a, (k, a) ∈ s.nodeMap_ ↔ a ∈ l ∧ keyOf s.heap a = some k
  mapNodup : (s.nodeMap_.map (fun e => e.1)).Nodup
  size_eq : s.nodeMap_.length = l.length
  capRange : INT_MIN ≤ s.capacity_ ∧ s.capacity_ ≤ INT_MAX
  bound : (l.length : Int) ≤ max s.capacity_ 0

/-- Some sequence of calls on a freshly constructed cache, whose capacity is a
value of `int`, leads to the state `s`. -/
def Reachable [DecidableEq K] [Inhabited K] [Inhabited V] (s : LruCache K V) : Prop :=
  ∃ (capacity : Int) (cs : List (Call K V)),
    INT_MIN ≤ capacity ∧ capacity ≤ INT_MAX ∧ runFresh capacity cs = some s

/-! ## The model of the specification

The recency ordering of the specification: the cached associations as a list,
least recently used first, with the operations of its section 4.2 on it. -/

/-- The value associated with a key in a recency ordering. -/
def specFind [DecidableEq K] : List (K × V) → K → Option V
  | [], _ => none
  | e :: es, key => if e.1 = key then some e.2 else specFind es key

/-- A recency ordering without the entries of a key. -/
def dropKey [DecidableEq K] : List (K × V) → K → List (K × V)
  | [], _ => []
  | e :: es, key => if e.1 = key then dropKey es key else e :: dropKey es key

/-- A recency ordering with the value of a key replaced in place. -/
def putValue [DecidableEq K] : List (K × V) → K → V → List (K × V)
  | [], _, _ => []
  | e :: es, key, value =>
    if e.1 = key then (e.1, value) :: putValue es key value else e :: putValue es key value

/-- The specification of `get`: a hit promotes the entry to the tail end and
yields its value, a miss changes nothing and leaves `out` untouched. -/
def specGet [DecidableEq K] (es : List (K × V)) (key : K) (out : V) : List (K × V) × Bool × V :=
  match specFind es key with
  | some v => (dropKey es key ++ [(key, v)], true, v)
  | none => (es, false, out)

/-- The specification of `set`: nothing for a capacity that is not positive, an
in-place update of a present key, and for an absent key the eviction of the
entry nearest the head when the size has reached the capacity, followed by
insertion at the tail end. -/
def specSet [DecidableEq K] (capacity : Int) (es : List (K × V)) (key : K) (value : V) :
    List (K × V) :=
  if capacity ≤ 0 then es
  else
    match specFind es key with
    | some _ => putValue es key value
    | none => (if capacity ≤ (es.length : Int) then es.drop 1 else es) ++ [(key, value)]

/-- The specification of `remove`: the entry of the key is detached, no effect
on the order of the other entries. -/
def specRemove [DecidableEq K] (es : List (K × V)) (key : K) : List (K × V) :=
  dropKey es key

/-- One call on the recency ordering of the specification. -/
def specStep [DecidableEq K] [Inhabited V] (capacity : Int) (es : List (K × V)) :
    Call K V → List (K × V)
  | .set key value => specSet capacity es key value
  | .get key value => (specGet es key value).1
  | .get1 key => (specGet es key default).1
  | .remove key => specRemove es key

/-- A sequence of calls on the recency ordering of the specification. -/
def specRun [DecidableEq K] [Inhabited V] (capacity : Int) (es : List (K × V)) :
    List (Call K V) → List (K × V)
  | [] => es
  | c :: cs => specRun capacity (specStep capacity es c) cs

/-! ## The fullness test on the integers -/

/-- The member function `addNewNode` with the fullness test taken on the
mathematical integers, `capacity_ ≤ size`, instead of on `size_t`. -/
def addNewNodeExact [DecidableEq K] (s : LruCache K V) (key : K) (value : V) :
    Option (LruCache K V) := do
  let s1 ← if decide (s.capacity_ ≤ (s.nodeMap_.length : Int)) then evictLeastRecent s
    else some s
  let (h, newNode) := alloc s1.heap key value
  let s2 ← insertNode { s1 with heap := h } newNode
  some { s2 with nodeMap_ := mapAssign s2.nodeMap_ key newNode }

/-- The member function `set` calling `addNewNodeExact` in place of `addNewNode`. -/
def setExact [DecidableEq K] (s : LruCache K V) (key : K) (value : V) : Option (LruCache K V) :=
  if s.capacity_ ≤ 0 then some s
  else
    match mapFind s.nodeMap_ key with
    | some node => updateExisitingNode s node value
    | none => addNewNodeExact s key value

/-! ## Use of the mutex

The public member functions take `mutex_` through a `std::lock_guard`, which
acquires it where it is declared and releases it when the function returns.
The statements of each public member function, in program order on the path
the state selects, are listed as events. -/

/-- A statement of a public member function, as far as the mutex is concerned. -/
inductive Event where
  | testCapacity
  | acquire
  | release
  | find
  | updateExisitingNode
  | addNewNode
  | moveToMostRecent
  | getValue
  | removeNode
  | erase
  | initValue
  | returnValue
deriving DecidableEq, Repr

/-- The statements of `set`: the test `capacity_ <= 0` and its return come
before the declaration of the `lock_guard`. -/
def setEvents [DecidableEq K] (s : LruCache K V) (key : K) : List Event :=
  if s.capacity_ ≤ 0 then [.testCapacity]
  else
    match mapFind s.nodeMap_ key with
    | some _ => [.testCapacity, .acquire, .find, .updateExisitingNode, .release]
    | none => [.testCapacity, .acquire, .find, .addNewNode, .release]

/-- The statements of `get(K key, V& value)`. -/
def getEvents [DecidableEq K] (s : LruCache K V) (key : K) : List Event :=
  match mapFind s.nodeMap_ key with
  | some _ => [.acquire, .find, .moveToMostRecent, .getValue, .release]
  | none => [.acquire, .find, .release]

/-- The statements of `get(K key)`: `V value{}`, the call of the two-argument
`get`, and `return value`; it declares no `lock_guard` of its own. -/
def get1Events [DecidableEq K] (s : LruCache K V) (key : K) : List Event :=
  [.initValue] ++ getEvents s key ++ [.returnValue]

/-- The statements of `remove`. -/
def removeEvents [DecidableEq K] (s : LruCache K V) (key : K) : List Event :=
  match mapFind s.nodeMap_ key with
  | some _ => [.acquire, .find, .removeNode, .erase, .release]
  | none => [.acquire, .find, .release]

/-- The statements that read or write the index or the linked list. -/
def Event.usesShared : Event → Bool
  | .find | .updateExisitingNode | .addNewNode | .moveToMostRecent | .getValue | .removeNode
  | .erase => true
  | _ => false

/-- Starting with the mutex held or not, the events acquire it only when it is
free, release it only when it is held, touch the index and the list only while
it is held, and leave it free. -/
def wellLocked : Bool → List Event → Bool
  | held, [] => !held
  | held, .acquire :: es => !held && wellLocked true es
  | held, .release :: es => held && wellLocked false es
  | held, e :: es => (!e.usesShared || held) && wellLocked held es

/-- The mutex is acquired first and released last. -/
def lockedThroughout (es : List Event) : Bool :=
  decide (es.head? = some Event.acquire) && decide (es.getLast? = some Event.release)

/-! ## Last touch of a key -/

/-- Whether a call issued in state `s` touches `key`: a `set` that inserts it as
a new key (the `addNewNode` path of `set`), or a `get` of either form that finds
it.  An overwriting `set` and `remove` touch nothing. -/
def touches [DecidableEq K] (s : LruCache K V) (c : Call K V) (key : K) : Bool :=
  match c with
  | .set k _ => decide (k = key) && decide (0 < s.capacity_) && (mapFind s.nodeMap_ k).isNone
  | .get k _ => decide (k = key) && (mapFind s.nodeMap_ k).isSome
  | .get1 k => decide (k = key) && (mapFind s.nodeMap_ k).isSome
  | .remove _ => false

/-- A sequence of calls, numbered from `i`, applied to a state, recording for
each key the number of the most recent call that touched it; `t` is the record
before the sequence. -/
def runTouch [DecidableEq K] [Inhabited V] (s : LruCache K V) (t : K → Option Nat) (i : Nat) :
    List (Call K V) → Option (LruCache K V × (K → Option Nat))
  | [] => some (s, t)
  | c :: cs =>
    (step s c).bind
      (fun s1 => runTouch s1 (fun key => if touches s c key then some i else t key) (i + 1) cs)

/-- A sequence of calls, numbered from 0, applied to a freshly constructed cache,
with the last touch of each key. -/
def runTouchFresh [DecidableEq K] [Inhabited K] [Inhabited V] (capacity : Int)
    (cs : List (Call K V)) : Option (LruCache K V × (K → Option Nat)) :=
  (LruCache.new capacity).bind (fun s => runTouch s (fun _ => none) 0 cs)

/-- Both keys have been touched, the first one strictly earlier than the second. -/
def TouchedBefore (t : K → Option Nat) (a b : K) : Prop :=
  ∃ x y, t a = some x ∧ t b = some y ∧ x < y

/-- The keys `ks` are listed in strictly increasing order of last touch, all
touched by calls numbered below `i`. -/
def TouchSorted (i : Nat) (ks : List K) (t : K → Option Nat) : Prop :=
  ks.Pairwise (TouchedBefore t) ∧ ∀ k ∈ ks, ∃ x, t k = some x ∧ x < i

/-! ## Example states -/

/-- The state of a cache of capacity 2 after `set(1, 10); set(2, 20)`. -/
def twoEntries : LruCache Nat Nat :=
  { capacity_ := 2
    nodeMap_ := [(2, 3), (1, 2)]
    heap := [⟨0, 0, 1, none, some 2⟩, ⟨0, 0, 1, some 3, none⟩, ⟨1, 10, 1, some 0, some 3⟩,
      ⟨2, 20, 1, some 2, some 1⟩]
    dummyHead_ := 0
    dummyTail_ := 1 }

/-- The state of a cache constructed with capacity -1, which no call changes. -/
def freshNegative : LruCache Nat Nat :=
  { capacity_ := -1
    nodeMap_ := []
    heap := [⟨0, 0, 1, none, some 1⟩, ⟨0, 0, 1, some 0, none⟩]
    dummyHead_ := 0
    dummyTail_ := 1 }

/-- A sequence of calls mixing the four public member functions. -/
def mixedCalls : List (Call Nat Nat) :=
  [.set 1 10, .set 2 20, .get 1 0, .set 3 30, .remove 1, .get1 3, .set 4 40, .set 5 50]

end Defs

/-! ## Stores and reads on the arena -/

section HeapLemmas

variable {K V : Type}

theorem SameData.refl (h : Heap K V) : SameData h h :=
  ⟨rfl, fun _ => rfl, fun _ => rfl, fun _ => rfl⟩

theorem SameData.trans {h h1 h2 : Heap K V} (a : SameData h h1) (b : SameData h1 h2) :
    SameData h h2 :=
  ⟨b.length_eq.trans a.length_eq, fun x => (b.key_eq x).trans (a.key_eq x),
   fun x => (b.value_eq x).trans (a.value_eq x), fun x => (b.count_eq x).trans (a.count_eq x)⟩

theorem getElem?_isSome_of_lt {h : Heap K V} {a : Nat} (ha : a < h.length) :
    ∃ n, h[a]? = some n :=
  ⟨h[a], List.getElem?_eq_getElem ha⟩

theorem lt_of_nextOf {h : Heap K V} {a b : Nat} (e : nextOf h a = some b) : a < h.length := by
  by_contra hlt
  have : h[a]? = none := List.getElem?_eq_none (by omega)
  simp [nextOf, this] at e

theorem lt_of_prevOf {h : Heap K V} {a b : Nat} (e : prevOf h a = some b) : a < h.length := by
  by_contra hlt
  have : h[a]? = none := List.getElem?_eq_none (by omega)
  simp [prevOf, this] at e

theorem setNext_some (h : Heap K V) {a : Nat} (p : Option Nat) (ha : a < h.length) :
    ∃ h1, setNext h a p = some h1 ∧ SameData h h1 ∧
      (∀ b, nextOf h1 b = if b = a then p else nextOf h b) ∧
      (∀ b, prevOf h1 b = prevOf h b) := by
  obtain ⟨n, hn⟩ := getElem?_isSome_of_lt ha
  refine ⟨h.set a { n with next_ := p }, by simp [setNext, hn], ⟨by simp, ?_, ?_, ?_⟩, ?_, ?_⟩ <;>
    intro b <;> by_cases hb : b = a
  all_goals first
    | (subst hb; simp [keyOf, valueOf, countOf, nextOf, prevOf, List.getElem?_set, ha, hn])
    | simp [keyOf, valueOf, countOf, nextOf, prevOf, List.getElem?_set, hb, Ne.symm hb]

theorem setPrev_some (h : Heap K V) {a : Nat} (p : Option Nat) (ha : a < h.length) :
    ∃ h1, setPrev h a p = some h1 ∧ SameData h h1 ∧
      (∀ b, prevOf h1 b = if b = a then p else prevOf h b) ∧
      (∀ b, nextOf h1 b = nextOf h b) := by
  obtain ⟨n, hn⟩ := getElem?_isSome_of_lt ha
  refine ⟨h.set a { n with prev_ := p }, by simp [setPrev, hn], ⟨by simp, ?_, ?_, ?_⟩, ?_, ?_⟩ <;>
    intro b <;> by_cases hb : b = a
  all_goals first
    | (subst hb; simp [keyOf, valueOf, countOf, nextOf, prevOf, List.getElem?_set, ha, hn])
    | simp [keyOf, valueOf, countOf, nextOf, prevOf, List.getElem?_set, hb, Ne.symm hb]

theorem setValue_some (h : Heap K V) {a : Nat} (v : V) (ha : a < h.length) :
    ∃ h1, setValue h a v = some h1 ∧ h1.length = h.length ∧
      (∀ b, valueOf h1 b = if b = a then some v else valueOf h b) ∧
      (∀ b, keyOf h1 b = keyOf h b) ∧ (∀ b, countOf h1 b = countOf h b) ∧
      (∀ b, nextOf h1 b = nextOf h b) ∧ (∀ b, prevOf h1 b = prevOf h b) := by
  obtain ⟨n, hn⟩ := getElem?_isSome_of_lt ha
  refine ⟨h.set a { n with value_ := v }, by simp [setValue, hn], by simp, ?_, ?_, ?_, ?_, ?_⟩ <;>
    intro b <;> by_cases hb : b = a
  all_goals first
    | (subst hb; simp [keyOf, valueOf, countOf, nextOf, prevOf, List.getElem?_set, ha, hn])
    | simp [keyOf, valueOf, countOf, nextOf, prevOf, List.getElem?_set, hb, Ne.symm hb]

theorem alloc_spec (h : Heap K V) (key : K) (value : V) :
    (alloc h key value).2 = h.length ∧ (alloc h key value).1.length = h.length + 1 ∧
      (∀ b, nextOf (alloc h key value).1 b = if b = h.length then none else nextOf h b) ∧
      (∀ b, prevOf (alloc h key value).1 b = if b = h.length then none else prevOf h b) ∧
      (∀ b, keyOf (alloc h key value).1 b = if b = h.length then some key else keyOf h b) ∧
      (∀ b, valueOf (alloc h key value).1 b = if b = h.length then some value else valueOf h b) ∧
      (∀ b, countOf (alloc h key value).1 b = if b = h.length then some 1 else countOf h b) := by
  refine ⟨rfl, by simp [alloc], ?_, ?_, ?_, ?_, ?_⟩ <;> intro b <;>
    rcases Nat.lt_trichotomy b h.length with hb | hb | hb
  all_goals first
    | (have hne : b ≠ h.length := by omega
       simp [alloc, keyOf, valueOf, countOf, nextOf, prevOf, hne, List.getElem?_append_left hb])
    | (subst hb; simp [alloc, keyOf, valueOf, countOf, nextOf, prevOf, LruNode.new])
    | (have hne : b ≠ h.length := by omega
       have h1 : h[b]? = none := List.getElem?_eq_none (by omega)
       have h2 : (h ++ [LruNode.new key value])[b]? = none :=
         List.getElem?_eq_none (by simp; omega)
       simp [alloc, keyOf, valueOf, countOf, nextOf, prevOf, hne, h1, h2])

end HeapLemmas

/-! ## The doubly linked list between the sentinels -/

section ListShape

variable {K V : Type}

theorem Linked.frame {h h1 : Heap K V} :
    ∀ {l : List Nat} {a : Nat}, Linked h a l →
      (∀ b ∈ a :: l, nextOf h1 b = nextOf h b) → (∀ b ∈ l, prevOf h1 b = prevOf h b) →
      Linked h1 a l
  | [], _, _, _, _ => trivial
  | b :: l, a, hl, hn, hp => by
    obtain ⟨e1, e2, e3⟩ := hl
    refine ⟨by rw [hn a (by simp), e1], by rw [hp b (by simp), e2], ?_⟩
    exact Linked.frame e3 (fun c hc => hn c (List.mem_cons_of_mem _ hc))
      (fun c hc => hp c (List.mem_cons_of_mem _ hc))

theorem Linked.mem_lt_length {h : Heap K V} :
    ∀ {l : List Nat} {a : Nat}, Linked h a l → ∀ b ∈ l, b < h.length
  | [], _, _, b, hb => by simp at hb
  | c :: l, a, hl, b, hb => by
    obtain ⟨_, e2, e3⟩ := hl
    rcases List.mem_cons.1 hb with rfl | hb
    · exact lt_of_prevOf e2
    · exact Linked.mem_lt_length e3 b hb

theorem Linked.append_left {h : Heap K V} :
    ∀ {l r : List Nat} {a : Nat}, Linked h a (l ++ r) → Linked h a l
  | [], _, _, _ => trivial
  | _ :: _, _, _, hl => ⟨hl.1, hl.2.1, Linked.append_left hl.2.2⟩

theorem walk_of_linked {h : Heap K V} {t : Nat} (ht : nextOf h t = none) :
    ∀ (l : List Nat) (fuel a : Nat), Linked h a (l ++ [t]) → l.length + 1 < fuel →
      walk h fuel a = a :: (l ++ [t])
  | [], fuel, a, hl, hf => by
    obtain ⟨e1, e2, _⟩ := hl
    obtain ⟨f, rfl⟩ : ∃ f, fuel = f + 2 := ⟨fuel - 2, by simp at hf; omega⟩
    obtain ⟨n, hn⟩ := getElem?_isSome_of_lt (lt_of_nextOf e1)
    obtain ⟨m, hm⟩ := getElem?_isSome_of_lt (lt_of_prevOf e2)
    simp only [nextOf, hn, hm, Option.some_bind] at e1 ht
    simp [walk, hn, hm, e1, ht]
  | b :: l, fuel, a, hl, hf => by
    obtain ⟨e1, _, e3⟩ := hl
    obtain ⟨f, rfl⟩ : ∃ f, fuel = f + 1 := ⟨fuel - 1, by simp at hf; omega⟩
    obtain ⟨n, hn⟩ := getElem?_isSome_of_lt (lt_of_nextOf e1)
    simp only [nextOf, hn, Option.some_bind] at e1
    have ih := walk_of_linked ht l f b e3 (by simp at hf; omega)
    simp [walk, hn, e1, ih]

theorem length_le_of_nodup_lt {l : List Nat} {n : Nat} (hnd : l.Nodup) (hlt : ∀ b ∈ l, b < n) :
    l.length ≤ n := by
  have hsub : l.toFinset ⊆ Finset.range n := by
    intro x hx
    exact Finset.mem_range.2 (hlt x (List.mem_toFinset.1 hx))
  have := Finset.card_le_card hsub
  rwa [List.toFinset_card_of_nodup hnd, Finset.card_range] at this

theorem ListInv.node_lt_length {h : Heap K V} {hd tl : Nat} {l : List Nat} (hI : ListInv h hd tl l) :
    ∀ b ∈ hd :: (l ++ [tl]), b < h.length := by
  intro b hb
  rcases List.mem_cons.1 hb with rfl | hb
  · cases hl : l ++ [tl] with
    | nil => simp at hl
    | cons c r =>
      have := hI.linked
      rw [hl] at this
      exact lt_of_nextOf this.1
  · exact hI.linked.mem_lt_length b hb

theorem ListInv.walk_eq {h : Heap K V} {hd tl : Nat} {l : List Nat} (hI : ListInv h hd tl l) :
    walk h h.length hd = hd :: (l ++ [tl]) := by
  apply walk_of_linked hI.tailNext l _ _ hI.linked
  have := length_le_of_nodup_lt hI.nodup hI.node_lt_length
  simp at this
  omega

theorem takeWhile_ne_append {t : Nat} :
    ∀ (l : List Nat), t ∉ l → (l ++ [t]).takeWhile (fun a => decide (a ≠ t)) = l
  | [], _ => by simp
  | b :: l, hb => by
    have h1 : b ≠ t := fun e => hb (by simp [e])
    have h2 : t ∉ l := fun e => hb (List.mem_cons_of_mem _ e)
    have ih := takeWhile_ne_append l h2
    rw [List.cons_append, List.takeWhile_cons, ih]
    simp [h1]

theorem order_eq {s : LruCache K V} {l : List Nat}
    (hI : ListInv s.heap s.dummyHead_ s.dummyTail_ l) : order s = l := by
  have hnd := hI.nodup
  have ht : s.dummyTail_ ∉ l := by
    intro hm
    have := (List.nodup_cons.1 hnd).2
    exact (List.nodup_append.1 this).2.2 hm (by simp)
  rw [order, hI.walk_eq, List.drop_one, List.tail_cons, takeWhile_ne_append l ht]

theorem owned_of_mem_list {s : LruCache K V} {l : List Nat} (locals : List Nat)
    (hI : ListInv s.heap s.dummyHead_ s.dummyTail_ l) {a : Nat}
    (ha : a ∈ s.dummyHead_ :: (l ++ [s.dummyTail_])) : owned s locals a = true := by
  simp only [owned, List.any_cons, hI.walk_eq, Bool.or_eq_true, decide_eq_true_eq]
  exact Or.inl ha

theorem Linked.split {h : Heap K V} {a : Nat} {r : List Nat} :
    ∀ {l : List Nat} {x : Nat}, Linked h x (l ++ a :: r) →
      ∃ pre, pre ∈ x :: l ∧ nextOf h pre = some a ∧ prevOf h a = some pre ∧ Linked h a r
  | [], x, hl => ⟨x, by simp, hl.1, hl.2.1, hl.2.2⟩
  | _ :: _, _, hl => by
    obtain ⟨pre, hm, e1, e2, e3⟩ := Linked.split hl.2.2
    exact ⟨pre, List.mem_cons_of_mem _ hm, e1, e2, e3⟩

theorem Linked.unlink_chain {h h1 : Heap K V} {a pre nxt : Nat} {r : List Nat}
    (hpre : nextOf h pre = some a) (hprev : prevOf h a = some pre)
    (hn : ∀ b, nextOf h1 b = if b = a then none else if b = pre then some nxt else nextOf h b)
    (hp : ∀ b, prevOf h1 b = if b = nxt then some pre else prevOf h b) :
    ∀ {l : List Nat} {x : Nat}, Linked h x (l ++ a :: nxt :: r) →
      (x :: (l ++ a :: nxt :: r)).Nodup → Linked h1 x (l ++ nxt :: r)
  | [], x, hl, hnd => by
    obtain ⟨_, e2, _, _, e5⟩ := hl
    have hx : pre = x := by rw [hprev] at e2; exact Option.some.inj e2
    subst hx
    simp only [List.nil_append, List.nodup_cons, List.mem_cons, not_or] at hnd
    obtain ⟨⟨hxa, hxn, hxr⟩, ⟨han, har⟩, hnr, _⟩ := hnd
    refine ⟨by simp [hn, hxa], by simp [hp], ?_⟩
    apply Linked.frame e5
    · intro b hb
      have hba : b ≠ a := by
        rintro rfl
        rcases List.mem_cons.1 hb with e | e
        · exact han e
        · exact har e
      have hbp : b ≠ pre := by
        rintro rfl
        rcases List.mem_cons.1 hb with e | e
        · exact hxn e
        · exact hxr e
      simp [hn, hba, hbp]
    · intro b hb
      have hbn : b ≠ nxt := by
        rintro rfl
        exact hnr hb
      simp [hp, hbn]
  | y :: l, x, hl, hnd => by
    obtain ⟨e1, e2, e3⟩ := hl
    have hnd1 := (List.nodup_cons.1 hnd).2
    have ih := Linked.unlink_chain hpre hprev hn hp e3 hnd1
    simp only [List.cons_append, List.nodup_cons, List.mem_cons, List.mem_append, not_or] at hnd
    obtain ⟨⟨hxy, _, hxa, _, _⟩, ⟨_, hya, hyn, _⟩, _⟩ := hnd
    have hxp : x ≠ pre := by
      rintro rfl
      rw [hpre] at e1
      exact hya (Option.some.inj e1).symm
    exact ⟨by simp [hn, hxa, hxp, e1], by simp [hp, hyn, e2], ih⟩

theorem removeNode_spec {s : LruCache K V} {l1 l2 : List Nat} {a : Nat}
    (hI : ListInv s.heap s.dummyHead_ s.dummyTail_ (l1 ++ a :: l2)) :
    ∃ h1, removeNode s a = some { s with heap := h1 } ∧ SameData s.heap h1 ∧
      ListInv h1 s.dummyHead_ s.dummyTail_ (l1 ++ l2) ∧
      (∀ b, nextOf h1 b = if b = a then none
        else if some b = prevOf s.heap a then nextOf s.heap a else nextOf s.heap b) ∧
      (∀ b, prevOf h1 b = if some b = nextOf s.heap a then prevOf s.heap a
        else prevOf s.heap b) := by
  have hlk := hI.linked
  rw [List.append_assoc, List.cons_append] at hlk
  obtain ⟨pre, hpm, hpre, hprev, hr⟩ := Linked.split hlk
  obtain ⟨nxt, r, hnr⟩ : ∃ nxt r, l2 ++ [s.dummyTail_] = nxt :: r := by
    cases l2 with
    | nil => exact ⟨_, _, rfl⟩
    | cons c l2 => exact ⟨_, _, rfl⟩
  rw [hnr] at hr hlk
  obtain ⟨hnext, _, _⟩ := hr
  have hnd := hI.nodup
  rw [List.append_assoc, List.cons_append, hnr] at hnd
  have hlt := hI.node_lt_length
  have ha : a < s.heap.length := lt_of_nextOf hnext
  have hpl : pre < s.heap.length := lt_of_nextOf hpre
  have hnl : nxt < s.heap.length := by
    apply hlt
    rw [List.append_assoc, List.cons_append, hnr]
    simp
  have hown : owned s [a] pre = true := by
    apply owned_of_mem_list [a] hI
    rcases List.mem_cons.1 hpm with e | e
    · simp [e]
    · simp [e]
  obtain ⟨n, hn⟩ := getElem?_isSome_of_lt ha
  obtain ⟨h1, e1, d1, n1, p1⟩ := setNext_some s.heap (some nxt) hpl
  obtain ⟨h2, e2, d2, p2, n2⟩ := setPrev_some h1 (some pre) (d1.length_eq ▸ hnl)
  obtain ⟨h3, e3, d3, n3, p3⟩ := setNext_some h2 none
    (show a < h2.length by rw [d2.length_eq, d1.length_eq]; exact ha)
  have hpa : pre ≠ a := by
    rintro rfl
    have := (List.nodup_cons.1 hnd).2
    rcases List.mem_cons.1 hpm with e | e
    · subst e
      exact (List.nodup_cons.1 hnd).1 (by simp)
    · exact (List.nodup_append.1 this).2.2 e (by simp)
  have hna1 : nextOf h1 a = some nxt := by simp [n1, hnext]
  have hN : ∀ b, nextOf h3 b = if b = a then none else if b = pre then some nxt
      else nextOf s.heap b := by
    intro b
    rw [n3, n2, n1]
  have hP : ∀ b, prevOf h3 b = if b = nxt then some pre else prevOf s.heap b := by
    intro b
    rw [p3, p2, p1]
  refine ⟨h3, ?_, (d1.trans d2).trans d3, ⟨?_, ?_, ?_⟩, ?_, ?_⟩
  · simp [removeNode, hn, hprev, hnext, expired, lock, hown, e1, hna1, e2, e3]
  · have := (List.nodup_cons.1 hnd)
    rw [List.append_assoc, hnr]
    simp only [List.nodup_cons, List.mem_append, List.mem_cons, List.nodup_append, not_or] at hnd ⊢
    tauto
  · rw [List.append_assoc, hnr]
    exact Linked.unlink_chain hpre hprev hN hP hlk hnd
  · have htm : s.dummyTail_ ∈ nxt :: r := by rw [← hnr]; simp
    have htl : s.dummyTail_ ≠ a ∧ s.dummyTail_ ≠ pre := by
      simp only [List.nodup_cons, List.mem_append, List.mem_cons, List.nodup_append,
        not_or] at hnd
      constructor
      · rintro e
        rw [e] at htm
        rcases List.mem_cons.1 htm with e1 | e1
        · exact hnd.2.2.1.1.1 e1
        · exact hnd.2.2.1.1.2 e1
      · rintro e
        rw [← e] at hpm
        rcases List.mem_cons.1 hpm with e1 | e1
        · rw [e1] at htm
          rcases List.mem_cons.1 htm with e2 | e2
          · exact hnd.1.2.2.1 e2
          · exact hnd.1.2.2.2 e2
        · exact hnd.2.2.2 e1 (List.mem_cons_of_mem _ htm)
    simp [hN, htl.1, htl.2, hI.tailNext]
  · intro b
    rw [hN, hprev, hnext]
    by_cases hb : b = a
    · simp [hb]
    · by_cases hb2 : b = pre
      · simp [hb, hb2]
      · have : ¬ (some b = some pre) := fun e => hb2 (Option.some.inj e)
        simp [hb, hb2, this]
  · intro b
    rw [hP, hprev, hnext]
    by_cases hb : b = nxt
    · simp [hb]
    · have : ¬ (some b = some nxt) := fun e => hb (Option.some.inj e)
      simp [hb, this]

theorem Linked.link {h h1 : Heap K V} {a pre t : Nat}
    (hpre : nextOf h pre = some t) (hprev : prevOf h t = some pre)
    (hn : ∀ b, nextOf h1 b = if b = pre then some a else if b = a then some t else nextOf h b)
    (hp : ∀ b, prevOf h1 b = if b = t then some a else if b = a then some pre else prevOf h b) :
    ∀ {l : List Nat} {x : Nat}, Linked h x (l ++ [t]) → (x :: (l ++ [t])).Nodup →
      a ∉ x :: (l ++ [t]) → Linked h1 x (l ++ [a, t])
  | [], x, hl, hnd, ha => by
    obtain ⟨_, e2, _⟩ := hl
    have hx : pre = x := by rw [hprev] at e2; exact Option.some.inj e2
    subst hx
    simp only [List.nil_append, List.mem_cons, List.mem_singleton, not_or, List.nodup_cons,
      List.not_mem_nil, not_false_eq_true, List.nodup_nil, and_true] at hnd ha
    have hat : a ≠ t := ha.2
    have hap : a ≠ pre := ha.1
    refine ⟨by simp [hn], by simp [hp, hat], by simp [hn, hap], by simp [hp], trivial⟩
  | y :: l, x, hl, hnd, ha => by
    obtain ⟨e1, e2, e3⟩ := hl
    have hnd1 := (List.nodup_cons.1 hnd).2
    have ha1 : a ∉ y :: (l ++ [t]) := fun e => ha (List.mem_cons_of_mem _ e)
    have ih := Linked.link hpre hprev hn hp e3 hnd1 ha1
    have hyt : y ≠ t := by rintro rfl; simp at hnd
    have hax : a ≠ x := by rintro rfl; simp at ha
    have hay : a ≠ y := by rintro rfl; simp at ha
    have hxp : x ≠ pre := by
      rintro rfl
      rw [hpre] at e1
      exact hyt (Option.some.inj e1).symm
    exact ⟨by simp [hn, Ne.symm hax, hxp, e1], by simp [hp, hyt, Ne.symm hay, e2], ih⟩

theorem insertNode_spec {s : LruCache K V} {l : List Nat} {a : Nat}
    (hI : ListInv s.heap s.dummyHead_ s.dummyTail_ l)
    (ha : a ∉ s.dummyHead_ :: (l ++ [s.dummyTail_])) (hal : a < s.heap.length) :
    ∃ h1, insertNode s a = some { s with heap := h1 } ∧ SameData s.heap h1 ∧
      ListInv h1 s.dummyHead_ s.dummyTail_ (l ++ [a]) ∧
      (∀ b, nextOf h1 b = if some b = prevOf s.heap s.dummyTail_ then some a
        else if b = a then some s.dummyTail_ else nextOf s.heap b) ∧
      (∀ b, prevOf h1 b = if b = s.dummyTail_ then some a
        else if b = a then prevOf s.heap s.dummyTail_ else prevOf s.heap b) := by
  have hlk := hI.linked
  obtain ⟨pre, hpm, hpre, hprev, _⟩ := Linked.split hlk
  have hlt := hI.node_lt_length
  have htl : s.dummyTail_ < s.heap.length := hlt _ (by simp)
  have hpl : pre < s.heap.length := lt_of_nextOf hpre
  have hat : a ≠ s.dummyTail_ := fun e => ha (by simp [e])
  have hap : a ≠ pre := by
    rintro rfl
    exact ha (by
      rcases List.mem_cons.1 hpm with e | e
      · simp [e]
      · simp [e])
  obtain ⟨h1, e1, d1, n1, p1⟩ := setNext_some s.heap (some s.dummyTail_) hal
  obtain ⟨h2, e2, d2, p2, n2⟩ := setPrev_some h1 (prevOf h1 s.dummyTail_)
    (show a < h1.length by rw [d1.length_eq]; exact hal)
  obtain ⟨h3, e3, d3, n3, p3⟩ := setNext_some h2 (some a)
    (show pre < h2.length by rw [d2.length_eq, d1.length_eq]; exact hpl)
  obtain ⟨h4, e4, d4, p4, n4⟩ := setPrev_some h3 (some a)
    (show s.dummyTail_ < h3.length by rw [d3.length_eq, d2.length_eq, d1.length_eq]; exact htl)
  obtain ⟨m1, hm1⟩ := getElem?_isSome_of_lt (show s.dummyTail_ < h1.length by
    rw [d1.length_eq]; exact htl)
  obtain ⟨m2, hm2⟩ := getElem?_isSome_of_lt (show s.dummyTail_ < h2.length by
    rw [d2.length_eq, d1.length_eq]; exact htl)
  have hp1 : prevOf h1 s.dummyTail_ = some pre := by rw [p1, hprev]
  have hp2 : prevOf h2 s.dummyTail_ = some pre := by
    rw [p2, hp1, if_neg (Ne.symm hat)]
  have hI2 : ListInv h2 s.dummyHead_ s.dummyTail_ l := by
    refine ⟨hI.nodup, Linked.frame hI.linked ?_ ?_, ?_⟩
    · intro b hb
      have hba : b ≠ a := by rintro rfl; exact ha hb
      rw [n2, n1, if_neg hba]
    · intro b hb
      have hba : b ≠ a := by rintro rfl; exact ha (List.mem_cons_of_mem _ hb)
      rw [p2, if_neg hba, p1]
    · rw [n2, n1, if_neg (Ne.symm hat), hI.tailNext]
  have hown : owned { s with heap := h2 } [a] pre = true := by
    apply owned_of_mem_list (s := { s with heap := h2 }) [a] hI2
    rcases List.mem_cons.1 hpm with e | e
    · simp [e]
    · simp [e]
  have hN : ∀ b, nextOf h4 b = if b = pre then some a else if b = a then some s.dummyTail_
      else nextOf s.heap b := by
    intro b
    simp only [n4, n3, n2, n1]
  have hP : ∀ b, prevOf h4 b = if b = s.dummyTail_ then some a else if b = a then some pre
      else prevOf s.heap b := by
    intro b
    simp only [p4, p3, p2, p1, hprev]
  refine ⟨h4, ?_, ((d1.trans d2).trans d3).trans d4, ⟨?_, ?_, ?_⟩, ?_, ?_⟩
  · rw [hp1] at e2
    simp [insertNode, e1, hm1, hp1, e2, hm2, hp2, lock, expired, hown, e3, e4]
  · have hnd := hI.nodup
    simp [List.nodup_append] at hnd ha ⊢
    exact ⟨⟨hnd.1.1, fun e => ha.1 e.symm, hnd.1.2⟩, hnd.2.1, ha.2.2, ha.2.1, hnd.2.2⟩
  · rw [List.append_assoc]
    exact Linked.link hpre hprev hN hP hlk hI.nodup ha
  · have htp : s.dummyTail_ ≠ pre := by
      rintro e
      rw [← e, hI.tailNext] at hpre
      exact Option.noConfusion hpre
    simp [hN, htp, Ne.symm hat, hI.tailNext]
  · intro b
    rw [hN, hprev]
    by_cases hb : b = pre
    · simp [hb]
    · have : ¬ (some b = some pre) := fun e => hb (Option.some.inj e)
      simp [hb, this]
  · intro b
    rw [hP, hprev]

end ListShape

/-! ## The index -/

section Index

variable {K : Type} [DecidableEq K]

theorem mapFind_some {m : List (K × Nat)} {k : K} {a : Nat} (e : mapFind m k = some a) :
    (k, a) ∈ m := by
  induction m with
  | nil => simp [mapFind] at e
  | cons x m ih =>
    by_cases hx : x.1 = k
    · simp only [mapFind, hx, if_true, Option.some.injEq] at e
      simp [← e, ← hx]
    · simp only [mapFind, hx, if_false] at e
      exact List.mem_cons_of_mem _ (ih e)

theorem mapFind_none {m : List (K × Nat)} {k : K} (e : mapFind m k = none) (a : Nat) :
    (k, a) ∉ m := by
  induction m with
  | nil => simp
  | cons x m ih =>
    by_cases hx : x.1 = k
    · simp [mapFind, hx] at e
    · simp only [mapFind, hx, if_false] at e
      intro hm
      rcases List.mem_cons.1 hm with h1 | h1
      · exact hx (by rw [← h1])
      · exact ih e h1

theorem mapFind_of_mem {m : List (K × Nat)} {k : K} {a : Nat}
    (nd : (m.map (fun e => e.1)).Nodup) (hm : (k, a) ∈ m) : mapFind m k = some a := by
  induction m with
  | nil => simp at hm
  | cons x m ih =>
    rw [List.map_cons, List.nodup_cons] at nd
    rcases List.mem_cons.1 hm with h1 | h1
    · simp [mapFind, ← h1]
    · have hx : x.1 ≠ k := by
        intro e
        exact nd.1 (List.mem_map.2 ⟨(k, a), h1, e.symm⟩)
      simp only [mapFind, hx, if_false]
      exact ih nd.2 h1

theorem mem_mapErase {m : List (K × Nat)} {k : K} {e : K × Nat} :
    e ∈ mapErase m k ↔ e ∈ m ∧ e.1 ≠ k := by
  simp [mapErase]

theorem mapErase_nodup {m : List (K × Nat)} (k : K) (nd : (m.map (fun e => e.1)).Nodup) :
    ((mapErase m k).map (fun e => e.1)).Nodup :=
  nd.sublist ((List.filter_sublist m).map _)

theorem mapErase_of_not_mem {m : List (K × Nat)} {k : K} (h : ∀ a, (k, a) ∉ m) :
    mapErase m k = m := by
  apply List.filter_eq_self.2
  intro e he
  have : e.1 ≠ k := by
    rintro rfl
    exact h e.2 he
  simpa using this

theorem mapErase_cons_eq (x : K × Nat) (m : List (K × Nat)) (k : K) (hx : x.1 = k) :
    mapErase (x :: m) k = mapErase m k := by
  simp [mapErase, List.filter_cons, hx]

theorem mapErase_cons_ne (x : K × Nat) (m : List (K × Nat)) (k : K) (hx : x.1 ≠ k) :
    mapErase (x :: m) k = x :: mapErase m k := by
  simp [mapErase, List.filter_cons, hx]

theorem mapErase_length {m : List (K × Nat)} {k : K} {a : Nat}
    (nd : (m.map (fun e => e.1)).Nodup) (hm : (k, a) ∈ m) :
    (mapErase m k).length + 1 = m.length := by
  induction m with
  | nil => simp at hm
  | cons x m ih =>
    rw [List.map_cons, List.nodup_cons] at nd
    by_cases hx : x.1 = k
    · have hno : ∀ b, (k, b) ∉ m := by
        intro b hb
        exact nd.1 (List.mem_map.2 ⟨(k, b), hb, hx.symm⟩)
      rw [mapErase_cons_eq x m k hx, mapErase_of_not_mem hno, List.length_cons]
    · rcases List.mem_cons.1 hm with h1 | h1
      · exact absurd (by rw [← h1]) hx
      · rw [mapErase_cons_ne x m k hx, List.length_cons, ih nd.2 h1, List.length_cons]

end Index

/-! ## The representation invariant -/

section Invariant

variable {K V : Type} [DecidableEq K]

theorem keyOf_isSome_of_lt {h : Heap K V} {a : Nat} (ha : a < h.length) :
    ∃ k, keyOf h a = some k := by
  obtain ⟨n, hn⟩ := getElem?_isSome_of_lt ha
  exact ⟨n.key_, by simp [keyOf, hn]⟩

theorem valueOf_isSome_of_lt {h : Heap K V} {a : Nat} (ha : a < h.length) :
    ∃ v, valueOf h a = some v := by
  obtain ⟨n, hn⟩ := getElem?_isSome_of_lt ha
  exact ⟨n.value_, by simp [valueOf, hn]⟩

theorem Inv.addr_lt_length {s : LruCache K V} {l : List Nat} (hI : Inv s l) {a : Nat} (ha : a ∈ l) :
    a < s.heap.length :=
  hI.list.node_lt_length a (List.mem_cons_of_mem _ (List.mem_append_left _ ha))

theorem Inv.find_mem {s : LruCache K V} {l : List Nat} (hI : Inv s l) {k : K} {a : Nat}
    (e : mapFind s.nodeMap_ k = some a) : a ∈ l ∧ keyOf s.heap a = some k :=
  (hI.index k a).1 (mapFind_some e)

theorem Inv.find_of_mem {s : LruCache K V} {l : List Nat} (hI : Inv s l) {k : K} {a : Nat}
    (ha : a ∈ l) (hk : keyOf s.heap a = some k) : mapFind s.nodeMap_ k = some a :=
  mapFind_of_mem hI.mapNodup ((hI.index k a).2 ⟨ha, hk⟩)

theorem Inv.key_inj {s : LruCache K V} {l : List Nat} (hI : Inv s l) {k : K} {a b : Nat}
    (ha : a ∈ l) (hb : b ∈ l) (hka : keyOf s.heap a = some k) (hkb : keyOf s.heap b = some k) :
    a = b := by
  have e1 := hI.find_of_mem ha hka
  have e2 := hI.find_of_mem hb hkb
  rw [e1] at e2
  exact Option.some.inj e2

theorem Inv.not_mem_mid {s : LruCache K V} {l1 l2 : List Nat} {a : Nat}
    (hI : Inv s (l1 ++ a :: l2)) : a ∉ l1 ++ l2 := by
  have hnd := (List.nodup_cons.1 hI.list.nodup).2
  have hnd2 : (l1 ++ a :: l2).Nodup := (List.nodup_append.1 hnd).1
  have := List.nodup_middle.1 hnd2
  exact (List.nodup_cons.1 this).1

/-- Unlinking a node of the list and erasing its key from the index. -/
theorem Inv.unlink_erase {s : LruCache K V} {l1 l2 : List Nat} {a : Nat} {k : K}
    (hI : Inv s (l1 ++ a :: l2)) (hk : keyOf s.heap a = some k) :
    ∃ h1, removeNode s a = some { s with heap := h1 } ∧ SameData s.heap h1 ∧
      Inv { s with heap := h1, nodeMap_ := mapErase s.nodeMap_ k } (l1 ++ l2) := by
  obtain ⟨h1, e1, d1, hL, _, _⟩ := removeNode_spec hI.list
  have ham : a ∈ l1 ++ a :: l2 := by simp
  have hna := hI.not_mem_mid
  refine ⟨h1, e1, d1, ⟨hL, ?_, mapErase_nodup k hI.mapNodup, ?_, hI.capRange, ?_⟩⟩
  · intro k1 a1
    show (k1, a1) ∈ mapErase s.nodeMap_ k ↔ a1 ∈ l1 ++ l2 ∧ keyOf h1 a1 = some k1
    rw [mem_mapErase, hI.index, d1.key_eq]
    constructor
    · rintro ⟨⟨hm, hk1⟩, hne⟩
      refine ⟨?_, hk1⟩
      have : a1 ≠ a := by
        rintro rfl
        rw [hk] at hk1
        exact hne (Option.some.inj hk1).symm
      simp only [List.mem_append, List.mem_cons] at hm ⊢
      tauto
    · rintro ⟨hm, hk1⟩
      have hm1 : a1 ∈ l1 ++ a :: l2 := by
        simp only [List.mem_append, List.mem_cons] at hm ⊢
        tauto
      refine ⟨⟨hm1, hk1⟩, ?_⟩
      intro e
      have e1 : k1 = k := e
      subst e1
      have := hI.key_inj hm1 ham hk1 hk
      exact hna (this ▸ hm)
  · show (mapErase s.nodeMap_ k).length = (l1 ++ l2).length
    have := mapErase_length hI.mapNodup ((hI.index k a).2 ⟨ham, hk⟩)
    have h2 := hI.size_eq
    simp only [List.length_append, List.length_cons] at h2 ⊢
    omega
  · have := hI.bound
    show ((l1 ++ l2).length : Int) ≤ max s.capacity_ 0
    simp only [List.length_append, List.length_cons, Nat.cast_add, Nat.cast_one] at this ⊢
    omega

/-- Moving a node of the list to the tail end. -/
theorem Inv.promote {s : LruCache K V} {l1 l2 : List Nat} {a : Nat}
    (hI : Inv s (l1 ++ a :: l2)) :
    ∃ h1, moveToMostRecent s a = some { s with heap := h1 } ∧ SameData s.heap h1 ∧
      Inv { s with heap := h1 } (l1 ++ l2 ++ [a]) := by
  obtain ⟨h1, e1, d1, hL, _, _⟩ := removeNode_spec hI.list
  have ham : a ∈ l1 ++ a :: l2 := by simp
  have hna := hI.not_mem_mid
  have hal : a < h1.length := by rw [d1.length_eq]; exact hI.addr_lt_length ham
  have hnc : a ∉ s.dummyHead_ :: (l1 ++ l2 ++ [s.dummyTail_]) := by
    have hnd := List.nodup_cons.1 hI.list.nodup
    have h1 : a ≠ s.dummyHead_ := by
      rintro rfl
      exact hnd.1 (List.mem_append_left _ ham)
    have h2 : a ≠ s.dummyTail_ := by
      rintro rfl
      exact (List.nodup_append.1 hnd.2).2.2 ham (by simp)
    intro hm
    rcases List.mem_cons.1 hm with e | e
    · exact h1 e
    · rcases List.mem_append.1 e with e | e
      · exact hna e
      · exact h2 (List.mem_singleton.1 e)
  obtain ⟨h2, e2, d2, hL2, _, _⟩ :=
    insertNode_spec (s := { s with heap := h1 }) hL hnc hal
  have hd := d1.trans d2
  refine ⟨h2, by simp [moveToMostRecent, e1, e2], hd, ⟨hL2, ?_, hI.mapNodup, ?_, hI.capRange, ?_⟩⟩
  · intro k1 a1
    show (k1, a1) ∈ s.nodeMap_ ↔ a1 ∈ l1 ++ l2 ++ [a] ∧ keyOf h2 a1 = some k1
    rw [hI.index, hd.key_eq]
    simp only [List.mem_append, List.mem_cons, List.mem_singleton, List.not_mem_nil, or_false]
    tauto
  · show s.nodeMap_.length = (l1 ++ l2 ++ [a]).length
    rw [hI.size_eq]
    simp only [List.length_append, List.length_cons, List.length_nil]
    omega
  · have := hI.bound
    show ((l1 ++ l2 ++ [a]).length : Int) ≤ max s.capacity_ 0
    simp only [List.length_append, List.length_cons, List.length_nil, Nat.cast_add,
      Nat.cast_one] at this ⊢
    omega

/-- Evicting the node next to the head sentinel. -/
theorem Inv.evict {s : LruCache K V} {l : List Nat} {a : Nat} (hI : Inv s (a :: l)) :
    ∃ h1 k, keyOf s.heap a = some k ∧
      evictLeastRecent s = some { s with heap := h1, nodeMap_ := mapErase s.nodeMap_ k } ∧
      SameData s.heap h1 ∧
      Inv { s with heap := h1, nodeMap_ := mapErase s.nodeMap_ k } l := by
  have hal : a < s.heap.length := hI.addr_lt_length (by simp)
  obtain ⟨k, hk⟩ := keyOf_isSome_of_lt hal
  have hI0 : Inv s ([] ++ a :: l) := hI
  obtain ⟨h1, e1, d1, hI1⟩ := hI0.unlink_erase hk
  have hnx : nextOf s.heap s.dummyHead_ = some a := hI.list.linked.1
  refine ⟨h1, k, hk, ?_, d1, hI1⟩
  have hk1 : keyOf h1 a = some k := by rw [d1.key_eq, hk]
  simp [evictLeastRecent, hnx, e1, hk1]

/-- Allocating a node for a key absent from the index and linking it before the
tail sentinel, when there is room for it. -/
theorem Inv.append {s : LruCache K V} {l : List Nat} (hI : Inv s l) (k : K) (v : V)
    (hfind : mapFind s.nodeMap_ k = none) (hroom : (l.length : Int) < s.capacity_) :
    ∃ h1, insertNode { s with heap := (alloc s.heap k v).1 } s.heap.length
        = some { s with heap := h1 } ∧
      h1.length = s.heap.length + 1 ∧
      (∀ b, keyOf h1 b = if b = s.heap.length then some k else keyOf s.heap b) ∧
      (∀ b, valueOf h1 b = if b = s.heap.length then some v else valueOf s.heap b) ∧
      (∀ b, countOf h1 b = if b = s.heap.length then some 1 else countOf s.heap b) ∧
      Inv { s with heap := h1, nodeMap_ := mapAssign s.nodeMap_ k s.heap.length }
        (l ++ [s.heap.length]) := by
  obtain ⟨_, hlen, hn, hp, hk, hv, hc⟩ := alloc_spec s.heap k v
  have hlt := hI.list.node_lt_length
  have hL0 : ListInv (alloc s.heap k v).1 s.dummyHead_ s.dummyTail_ l := by
    refine ⟨hI.list.nodup, Linked.frame hI.list.linked ?_ ?_, ?_⟩
    · intro b hb
      have : b ≠ s.heap.length := Nat.ne_of_lt (hlt b hb)
      rw [hn, if_neg this]
    · intro b hb
      have : b ≠ s.heap.length := Nat.ne_of_lt (hlt b (List.mem_cons_of_mem _ hb))
      rw [hp, if_neg this]
    · have : s.dummyTail_ ≠ s.heap.length := Nat.ne_of_lt (hlt _ (by simp))
      rw [hn, if_neg this, hI.list.tailNext]
  have hfresh : s.heap.length ∉ s.dummyHead_ :: (l ++ [s.dummyTail_]) := by
    intro hm
    exact Nat.lt_irrefl _ (hlt _ hm)
  obtain ⟨h1, e1, d1, hL1, _, _⟩ := insertNode_spec (s := { s with heap := (alloc s.heap k v).1 })
    hL0 hfresh (by show s.heap.length < (alloc s.heap k v).1.length; omega)
  have hno : ∀ a, (k, a) ∉ s.nodeMap_ := mapFind_none hfind
  refine ⟨h1, e1, by rw [d1.length_eq, hlen], fun b => by rw [d1.key_eq, hk],
    fun b => by rw [d1.value_eq, hv], fun b => by rw [d1.count_eq, hc],
    ⟨hL1, ?_, ?_, ?_, hI.capRange, ?_⟩⟩
  · intro k1 a1
    show (k1, a1) ∈ mapAssign s.nodeMap_ k s.heap.length ↔
      a1 ∈ l ++ [s.heap.length] ∧ keyOf h1 a1 = some k1
    rw [mapAssign, mapErase_of_not_mem hno, d1.key_eq, hk, List.mem_cons, hI.index,
      List.mem_append, List.mem_singleton]
    constructor
    · rintro (e | ⟨hm, hk1⟩)
      · obtain ⟨rfl, rfl⟩ := Prod.mk.inj e
        simp
      · have : a1 ≠ s.heap.length := Nat.ne_of_lt (hI.addr_lt_length hm)
        exact ⟨Or.inl hm, by rw [if_neg this]; exact hk1⟩
    · rintro ⟨hm | rfl, hk1⟩
      · have : a1 ≠ s.heap.length := Nat.ne_of_lt (hI.addr_lt_length hm)
        rw [if_neg this] at hk1
        exact Or.inr ⟨hm, hk1⟩
      · rw [if_pos rfl] at hk1
        exact Or.inl (by rw [Option.some.inj hk1])
  · show ((mapAssign s.nodeMap_ k s.heap.length).map (fun e => e.1)).Nodup
    rw [mapAssign, mapErase_of_not_mem hno, List.map_cons, List.nodup_cons]
    refine ⟨?_, hI.mapNodup⟩
    intro hm
    obtain ⟨e, he, hek⟩ := List.mem_map.1 hm
    have hek1 : e.1 = k := hek
    have hee : (k, e.2) = e := by rw [← hek1]
    exact hno e.2 (hee ▸ he)
  · show (mapAssign s.nodeMap_ k s.heap.length).length = (l ++ [s.heap.length]).length
    rw [mapAssign, mapErase_of_not_mem hno, List.length_cons, hI.size_eq, List.length_append,
      List.length_singleton]
  · show ((l ++ [s.heap.length]).length : Int) ≤ max s.capacity_ 0
    rw [List.length_append, List.length_singleton]
    push_cast
    omega

end Invariant

/-! ## Lists of associations -/

section SpecLists

variable {K V : Type} [DecidableEq K]

theorem specFind_of_forall_ne {es : List (K × V)} {k : K} (h : ∀ e ∈ es, e.1 ≠ k) :
    specFind es k = none := by
  induction es with
  | nil => rfl
  | cons x es ih =>
    have hx : x.1 ≠ k := h x (by simp)
    simp only [specFind, hx, if_false]
    exact ih (fun e he => h e (List.mem_cons_of_mem _ he))

theorem dropKey_of_forall_ne {es : List (K × V)} {k : K} (h : ∀ e ∈ es, e.1 ≠ k) :
    dropKey es k = es := by
  induction es with
  | nil => rfl
  | cons x es ih =>
    have hx : x.1 ≠ k := h x (by simp)
    simp only [dropKey, hx, if_false]
    rw [ih (fun e he => h e (List.mem_cons_of_mem _ he))]

theorem putValue_of_forall_ne {es : List (K × V)} {k : K} (v : V) (h : ∀ e ∈ es, e.1 ≠ k) :
    putValue es k v = es := by
  induction es with
  | nil => rfl
  | cons x es ih =>
    have hx : x.1 ≠ k := h x (by simp)
    simp only [putValue, hx, if_false]
    rw [ih (fun e he => h e (List.mem_cons_of_mem _ he))]

theorem specFind_append_of_forall_ne {es1 : List (K × V)} (es2 : List (K × V)) {k : K}
    (h : ∀ e ∈ es1, e.1 ≠ k) : specFind (es1 ++ es2) k = specFind es2 k := by
  induction es1 with
  | nil => rfl
  | cons x es ih =>
    have hx : x.1 ≠ k := h x (by simp)
    simp only [List.cons_append, specFind, hx, if_false]
    exact ih (fun e he => h e (List.mem_cons_of_mem _ he))

theorem dropKey_append (es1 es2 : List (K × V)) (k : K) :
    dropKey (es1 ++ es2) k = dropKey es1 k ++ dropKey es2 k := by
  induction es1 with
  | nil => rfl
  | cons x es ih =>
    rw [List.cons_append]
    by_cases hx : x.1 = k
    · simp only [dropKey, hx, if_true, ih]
    · simp only [dropKey, hx, if_false, ih, List.cons_append]

theorem putValue_append (es1 es2 : List (K × V)) (k : K) (v : V) :
    putValue (es1 ++ es2) k v = putValue es1 k v ++ putValue es2 k v := by
  induction es1 with
  | nil => rfl
  | cons x es ih =>
    rw [List.cons_append]
    by_cases hx : x.1 = k
    · simp only [putValue, hx, if_true, ih, List.cons_append]
    · simp only [putValue, hx, if_false, ih, List.cons_append]

theorem mem_dropKey {es : List (K × V)} {k : K} {e : K × V} :
    e ∈ dropKey es k ↔ e ∈ es ∧ e.1 ≠ k := by
  induction es with
  | nil => simp [dropKey]
  | cons x es ih =>
    by_cases hx : x.1 = k
    · simp only [dropKey, hx, if_true, ih, List.mem_cons]
      constructor
      · rintro ⟨h1, h2⟩
        exact ⟨Or.inr h1, h2⟩
      · rintro ⟨h1 | h1, h2⟩
        · exact absurd (by rw [h1, hx]) h2
        · exact ⟨h1, h2⟩
    · simp only [dropKey, hx, if_false, ih, List.mem_cons]
      constructor
      · rintro (h1 | ⟨h1, h2⟩)
        · exact ⟨Or.inl h1, by rw [h1]; exact hx⟩
        · exact ⟨Or.inr h1, h2⟩
      · rintro ⟨h1 | h1, h2⟩
        · exact Or.inl h1
        · exact Or.inr ⟨h1, h2⟩

theorem specFind_some_mem {es : List (K × V)} {k : K} {v : V} (e : specFind es k = some v) :
    (k, v) ∈ es := by
  induction es with
  | nil => simp [specFind] at e
  | cons x es ih =>
    by_cases hx : x.1 = k
    · simp only [specFind, hx, if_true, Option.some.injEq] at e
      simp [← e, ← hx]
    · simp only [specFind, hx, if_false] at e
      exact List.mem_cons_of_mem _ (ih e)

theorem specFind_none_iff {es : List (K × V)} {k : K} :
    specFind es k = none ↔ ∀ e ∈ es, e.1 ≠ k := by
  constructor
  · intro h
    induction es with
    | nil => simp
    | cons x es ih =>
      by_cases hx : x.1 = k
      · simp [specFind, hx] at h
      · simp only [specFind, hx, if_false] at h
        intro e he
        rcases List.mem_cons.1 he with h1 | h1
        · rw [h1]; exact hx
        · exact ih h e h1
  · exact specFind_of_forall_ne

theorem specFind_of_mem {es : List (K × V)} {k : K} {v : V}
    (nd : (es.map (fun e => e.1)).Nodup) (hm : (k, v) ∈ es) : specFind es k = some v := by
  induction es with
  | nil => simp at hm
  | cons x es ih =>
    rw [List.map_cons, List.nodup_cons] at nd
    rcases List.mem_cons.1 hm with h1 | h1
    · simp [specFind, ← h1]
    · have hx : x.1 ≠ k := by
        intro e
        exact nd.1 (List.mem_map.2 ⟨(k, v), h1, e.symm⟩)
      simp only [specFind, hx, if_false]
      exact ih nd.2 h1

end SpecLists

/-! ## Entries of the linked list -/

section Entries

variable {K V : Type} [DecidableEq K]

theorem entryOf_eq {h : Heap K V} {a : Nat} {k : K} {v : V} (hk : keyOf h a = some k)
    (hv : valueOf h a = some v) : entryOf h a = some (k, v) := by
  unfold keyOf at hk
  unfold valueOf at hv
  unfold entryOf
  cases hn : h[a]? with
  | none => simp [hn] at hk
  | some n =>
    simp only [hn, Option.map_some', Option.some.injEq] at hk hv ⊢
    rw [hk, hv]

theorem entryOf_some {h : Heap K V} {a : Nat} {e : K × V} (he : entryOf h a = some e) :
    keyOf h a = some e.1 ∧ valueOf h a = some e.2 := by
  unfold entryOf at he
  unfold keyOf valueOf
  cases hn : h[a]? with
  | none => simp [hn] at he
  | some n =>
    simp only [hn, Option.map_some', Option.some.injEq] at he ⊢
    rw [← he]
    exact ⟨rfl, rfl⟩

theorem entryOf_congr {h h1 : Heap K V} {a : Nat} (hk : keyOf h1 a = keyOf h a)
    (hv : valueOf h1 a = valueOf h a) : entryOf h1 a = entryOf h a := by
  cases he : entryOf h a with
  | some e =>
    obtain ⟨e1, e2⟩ := entryOf_some he
    exact entryOf_eq (hk.trans e1) (hv.trans e2)
  | none =>
    cases he1 : entryOf h1 a with
    | none => rfl
    | some e =>
      obtain ⟨e1, e2⟩ := entryOf_some he1
      rw [entryOf_eq (hk.symm.trans e1) (hv.symm.trans e2)] at he
      exact Option.noConfusion he

theorem filterMap_entryOf_congr {h h1 : Heap K V} {l : List Nat}
    (hk : ∀ b ∈ l, keyOf h1 b = keyOf h b) (hv : ∀ b ∈ l, valueOf h1 b = valueOf h b) :
    l.filterMap (entryOf h1) = l.filterMap (entryOf h) := by
  induction l with
  | nil => rfl
  | cons x l ih =>
    rw [List.filterMap_cons, List.filterMap_cons, entryOf_congr (hk x (by simp)) (hv x (by simp)),
      ih (fun b hb => hk b (List.mem_cons_of_mem _ hb))
        (fun b hb => hv b (List.mem_cons_of_mem _ hb))]

theorem mem_filterMap_entryOf {h : Heap K V} {l : List Nat} {e : K × V}
    (he : e ∈ l.filterMap (entryOf h)) : ∃ b ∈ l, keyOf h b = some e.1 ∧ valueOf h b = some e.2 := by
  obtain ⟨b, hb, hbe⟩ := List.mem_filterMap.1 he
  exact ⟨b, hb, entryOf_some hbe⟩

theorem length_filterMap_entryOf {h : Heap K V} {l : List Nat} (hl : ∀ b ∈ l, b < h.length) :
    (l.filterMap (entryOf h)).length = l.length := by
  induction l with
  | nil => rfl
  | cons x l ih =>
    obtain ⟨n, hn⟩ := getElem?_isSome_of_lt (hl x (by simp))
    have : entryOf h x = some (n.key_, n.value_) := by simp [entryOf, hn]
    rw [List.filterMap_cons, this]
    simp only [List.length_cons]
    rw [ih (fun b hb => hl b (List.mem_cons_of_mem _ hb))]

theorem Inv.entries_eq {s : LruCache K V} {l : List Nat} (hI : Inv s l) :
    entries s = l.filterMap (entryOf s.heap) := by
  rw [entries, order_eq hI.list]

theorem Inv.entries_length {s : LruCache K V} {l : List Nat} (hI : Inv s l) :
    (entries s).length = s.nodeMap_.length := by
  rw [hI.entries_eq, length_filterMap_entryOf (fun b hb => hI.addr_lt_length hb), hI.size_eq]

theorem Inv.forall_ne_of_not_mem {s : LruCache K V} {l : List Nat} (hI : Inv s l) {k : K}
    {l1 : List Nat} (hsub : ∀ b ∈ l1, b ∈ l) (hno : ∀ a, a ∈ l → keyOf s.heap a = some k → a ∉ l1) :
    ∀ e ∈ l1.filterMap (entryOf s.heap), e.1 ≠ k := by
  intro e he hek
  obtain ⟨b, hb, hkb, _⟩ := mem_filterMap_entryOf he
  rw [hek] at hkb
  exact hno b (hsub b hb) hkb hb

theorem Inv.entries_split {s : LruCache K V} {l1 l2 : List Nat} {a : Nat} {k : K} {v : V}
    (hI : Inv s (l1 ++ a :: l2)) (hk : keyOf s.heap a = some k)
    (hv : valueOf s.heap a = some v) :
    entries s = l1.filterMap (entryOf s.heap) ++ (k, v) :: l2.filterMap (entryOf s.heap) ∧
      (∀ e ∈ l1.filterMap (entryOf s.heap), e.1 ≠ k) ∧
      (∀ e ∈ l2.filterMap (entryOf s.heap), e.1 ≠ k) := by
  have ham : a ∈ l1 ++ a :: l2 := by simp
  have hna := hI.not_mem_mid
  refine ⟨?_, ?_, ?_⟩
  · rw [hI.entries_eq, List.filterMap_append, List.filterMap_cons, entryOf_eq hk hv]
  · apply hI.forall_ne_of_not_mem (fun b hb => List.mem_append_left _ hb)
    intro b hb hkb hb1
    have := hI.key_inj hb ham hkb hk
    exact hna (List.mem_append_left _ (this ▸ hb1))
  · apply hI.forall_ne_of_not_mem
      (fun b hb => List.mem_append_right _ (List.mem_cons_of_mem _ hb))
    intro b hb hkb hb1
    have := hI.key_inj hb ham hkb hk
    exact hna (List.mem_append_right _ (this ▸ hb1))

theorem Inv.specFind_none {s : LruCache K V} {l : List Nat} (hI : Inv s l) {k : K}
    (hf : mapFind s.nodeMap_ k = none) : ∀ e ∈ entries s, e.1 ≠ k := by
  rw [hI.entries_eq]
  apply hI.forall_ne_of_not_mem (fun b hb => hb)
  intro a ha hka
  exact absurd ((hI.index k a).2 ⟨ha, hka⟩) (mapFind_none hf a)

end Entries

/-! ## Each public member function follows the model of the specification -/

section Simulation

variable {K V : Type} [DecidableEq K]

/-- A hit of `get`: the node found is moved before the tail sentinel. -/
theorem get_hit {s : LruCache K V} {l : List Nat} (hI : Inv s l) {k : K} {a : Nat}
    (hf : mapFind s.nodeMap_ k = some a) (out : V) :
    ∃ h1 l1 v E1 E2, valueOf s.heap a = some v ∧
      get s k out = some ({ s with heap := h1 }, true, v) ∧ SameData s.heap h1 ∧
      Inv { s with heap := h1 } l1 ∧ entries s = E1 ++ (k, v) :: E2 ∧
      (∀ e ∈ E1, e.1 ≠ k) ∧ (∀ e ∈ E2, e.1 ≠ k) ∧
      entries { s with heap := h1 } = E1 ++ E2 ++ [(k, v)] := by
  obtain ⟨ham, hk⟩ := hI.find_mem hf
  obtain ⟨l1, l2, rfl⟩ := List.append_of_mem ham
  obtain ⟨v, hv⟩ := valueOf_isSome_of_lt (hI.addr_lt_length ham)
  obtain ⟨hE, hE1, hE2⟩ := hI.entries_split hk hv
  obtain ⟨h1, e1, d1, hI1⟩ := hI.promote
  have hv1 : valueOf h1 a = some v := by rw [d1.value_eq, hv]
  have hk1 : keyOf h1 a = some k := by rw [d1.key_eq, hk]
  refine ⟨h1, _, v, _, _, hv, ?_, d1, hI1, hE, hE1, hE2, ?_⟩
  · simp [get, hf, e1, hv1]
  · have hc : ∀ (l0 : List Nat), l0.filterMap (entryOf h1) = l0.filterMap (entryOf s.heap) :=
      fun l0 => filterMap_entryOf_congr (fun b _ => d1.key_eq b) (fun b _ => d1.value_eq b)
    rw [hI1.entries_eq, List.filterMap_append, List.filterMap_append]
    show List.filterMap (entryOf h1) l1 ++ List.filterMap (entryOf h1) l2
      ++ List.filterMap (entryOf h1) [a] = _
    rw [hc, hc]
    simp [entryOf_eq hk1 hv1]

theorem specFind_split {E1 E2 : List (K × V)} {k : K} {v : V} (hE1 : ∀ e ∈ E1, e.1 ≠ k) :
    specFind (E1 ++ (k, v) :: E2) k = some v := by
  rw [specFind_append_of_forall_ne _ hE1]
  simp [specFind]

theorem dropKey_split {E1 E2 : List (K × V)} {k : K} {v : V} (hE1 : ∀ e ∈ E1, e.1 ≠ k)
    (hE2 : ∀ e ∈ E2, e.1 ≠ k) : dropKey (E1 ++ (k, v) :: E2) k = E1 ++ E2 := by
  rw [dropKey_append, dropKey_of_forall_ne hE1]
  simp only [dropKey, if_true]
  rw [dropKey_of_forall_ne hE2]

theorem putValue_split {E1 E2 : List (K × V)} {k : K} {v : V} (w : V)
    (hE1 : ∀ e ∈ E1, e.1 ≠ k) (hE2 : ∀ e ∈ E2, e.1 ≠ k) :
    putValue (E1 ++ (k, v) :: E2) k w = E1 ++ (k, w) :: E2 := by
  rw [putValue_append, putValue_of_forall_ne w hE1]
  simp only [putValue, if_true]
  rw [putValue_of_forall_ne w hE2]

theorem get_sim {s : LruCache K V} {l : List Nat} (hI : Inv s l) (k : K) (out : V) :
    ∃ h1 l1, get s k out = some ({ s with heap := h1 }, (specGet (entries s) k out).2.1,
        (specGet (entries s) k out).2.2) ∧
      Inv { s with heap := h1 } l1 ∧
      entries { s with heap := h1 } = (specGet (entries s) k out).1 ∧
      SameData s.heap h1 := by
  cases hf : mapFind s.nodeMap_ k with
  | none =>
    have hn := specFind_of_forall_ne (hI.specFind_none hf)
    refine ⟨s.heap, l, ?_, hI, ?_, SameData.refl _⟩
    · simp [get, hf, specGet, hn]
    · simp [specGet, hn]
  | some a =>
    obtain ⟨h1, l1, v, E1, E2, _, e, d1, hI1, hE, hE1, hE2, hE3⟩ := get_hit hI hf out
    have hsf : specFind (entries s) k = some v := by rw [hE, specFind_split hE1]
    refine ⟨h1, l1, ?_, hI1, ?_, d1⟩
    · simp [e, specGet, hsf]
    · simp only [specGet, hsf]
      rw [hE3, hE, dropKey_split hE1 hE2]

/-- A hit of `remove`: the node found is unlinked and its key erased. -/
theorem remove_hit {s : LruCache K V} {l : List Nat} (hI : Inv s l) {k : K} {a : Nat}
    (hf : mapFind s.nodeMap_ k = some a) :
    ∃ h1 l1 v E1 E2, valueOf s.heap a = some v ∧
      remove s k = some { s with heap := h1, nodeMap_ := mapErase s.nodeMap_ k } ∧
      SameData s.heap h1 ∧
      Inv { s with heap := h1, nodeMap_ := mapErase s.nodeMap_ k } l1 ∧
      entries s = E1 ++ (k, v) :: E2 ∧ (∀ e ∈ E1, e.1 ≠ k) ∧ (∀ e ∈ E2, e.1 ≠ k) ∧
      entries { s with heap := h1, nodeMap_ := mapErase s.nodeMap_ k } = E1 ++ E2 ∧
      (mapErase s.nodeMap_ k).length + 1 = s.nodeMap_.length := by
  obtain ⟨ham, hk⟩ := hI.find_mem hf
  obtain ⟨l1, l2, rfl⟩ := List.append_of_mem ham
  obtain ⟨v, hv⟩ := valueOf_isSome_of_lt (hI.addr_lt_length ham)
  obtain ⟨hE, hE1, hE2⟩ := hI.entries_split hk hv
  obtain ⟨h1, e1, d1, hI1⟩ := hI.unlink_erase hk
  refine ⟨h1, _, v, _, _, hv, ?_, d1, hI1, hE, hE1, hE2, ?_,
    mapErase_length hI.mapNodup (mapFind_some hf)⟩
  · simp [remove, hf, e1]
  · have hc : ∀ (l0 : List Nat), l0.filterMap (entryOf h1) = l0.filterMap (entryOf s.heap) :=
      fun l0 => filterMap_entryOf_congr (fun b _ => d1.key_eq b) (fun b _ => d1.value_eq b)
    rw [hI1.entries_eq, List.filterMap_append]
    show List.filterMap (entryOf h1) l1 ++ List.filterMap (entryOf h1) l2 = _
    rw [hc, hc]

theorem remove_sim {s : LruCache K V} {l : List Nat} (hI : Inv s l) (k : K) :
    ∃ h1 l1, remove s k = some { s with heap := h1, nodeMap_ := mapErase s.nodeMap_ k } ∧
      Inv { s with heap := h1, nodeMap_ := mapErase s.nodeMap_ k } l1 ∧
      entries { s with heap := h1, nodeMap_ := mapErase s.nodeMap_ k }
        = specRemove (entries s) k ∧
      SameData s.heap h1 := by
  cases hf : mapFind s.nodeMap_ k with
  | none =>
    have hm : mapErase s.nodeMap_ k = s.nodeMap_ := mapErase_of_not_mem (mapFind_none hf)
    refine ⟨s.heap, l, ?_, ?_, ?_, SameData.refl _⟩
    · rw [hm]
      simp [remove, hf]
    · rw [hm]
      exact hI
    · rw [hm, specRemove, dropKey_of_forall_ne (hI.specFind_none hf)]
  | some a =>
    obtain ⟨h1, l1, v, E1, E2, _, e, d1, hI1, hE, hE1, hE2, hE3, _⟩ := remove_hit hI hf
    refine ⟨h1, l1, e, hI1, ?_, d1⟩
    rw [hE3, specRemove, hE, dropKey_split hE1 hE2]

end Simulation

/-! ## Conversion of the capacity in the fullness test -/

theorem sizeGeCapacity_eq {n : Nat} {c : Int} (h0 : 0 < c) (h1 : c ≤ INT_MAX)
    (hn : (n : Int) ≤ c) : sizeGeCapacity n c = decide (c ≤ (n : Int)) := by
  have hc : toSizeT c = c.toNat := by
    unfold toSizeT SIZE_BITS
    unfold INT_MAX at h1
    rw [Int.emod_eq_of_lt (by omega) (by norm_num; omega)]
  have hn2 : n % 2 ^ SIZE_BITS = n := by
    unfold SIZE_BITS
    unfold INT_MAX at h1
    apply Nat.mod_eq_of_lt
    norm_num
    omega
  unfold sizeGeCapacity
  rw [hc, hn2]
  congr 1
  apply propext
  omega

section SimulationSet

variable {K V : Type} [DecidableEq K]

theorem ListInv.same_links {h h1 : Heap K V} {hd tl : Nat} {l : List Nat}
    (hI : ListInv h hd tl l) (hn : ∀ b, nextOf h1 b = nextOf h b)
    (hp : ∀ b, prevOf h1 b = prevOf h b) : ListInv h1 hd tl l :=
  ⟨hI.nodup, Linked.frame hI.linked (fun b _ => hn b) (fun b _ => hp b),
    by rw [hn, hI.tailNext]⟩

/-- The part of `addNewNode` after the fullness test, when there is room. -/
theorem Inv.addNew {s : LruCache K V} {l : List Nat} (hI : Inv s l) (k : K) (v : V)
    (hfind : mapFind s.nodeMap_ k = none) (hroom : (l.length : Int) < s.capacity_) :
    ∃ s1, (insertNode { s with heap := (alloc s.heap k v).1 } (alloc s.heap k v).2).bind
        (fun s2 => some { s2 with nodeMap_ := mapAssign s2.nodeMap_ k (alloc s.heap k v).2 })
        = some s1 ∧
      Inv s1 (l ++ [s.heap.length]) ∧ entries s1 = entries s ++ [(k, v)] ∧
      s1.capacity_ = s.capacity_ := by
  obtain ⟨h1, e1, hlen, hk, hv, _, hI1⟩ := hI.append k v hfind hroom
  refine ⟨_, ?_, hI1, ?_, rfl⟩
  · have : (alloc s.heap k v).2 = s.heap.length := rfl
    rw [this, e1]
    rfl
  · rw [hI1.entries_eq, hI.entries_eq, List.filterMap_append]
    have hc : l.filterMap (entryOf h1) = l.filterMap (entryOf s.heap) := by
      apply filterMap_entryOf_congr
      · intro b hb
        rw [hk, if_neg (Nat.ne_of_lt (hI.addr_lt_length hb))]
      · intro b hb
        rw [hv, if_neg (Nat.ne_of_lt (hI.addr_lt_length hb))]
    have hnew : entryOf h1 s.heap.length = some (k, v) :=
      entryOf_eq (by rw [hk, if_pos rfl]) (by rw [hv, if_pos rfl])
    show List.filterMap (entryOf h1) l ++ List.filterMap (entryOf h1) [s.heap.length] = _
    rw [hc]
    simp [hnew]

theorem set_sim {s : LruCache K V} {l : List Nat} (hI : Inv s l) (k : K) (v : V) :
    ∃ s1 l1, set s k v = some s1 ∧ Inv s1 l1 ∧
      entries s1 = specSet s.capacity_ (entries s) k v ∧ s1.capacity_ = s.capacity_ := by
  by_cases hc : s.capacity_ ≤ 0
  · exact ⟨s, l, by simp [set, hc], hI, by simp [specSet, hc], rfl⟩
  cases hf : mapFind s.nodeMap_ k with
  | some a =>
    obtain ⟨ham, hk⟩ := hI.find_mem hf
    obtain ⟨l1, l2, rfl⟩ := List.append_of_mem ham
    obtain ⟨v0, hv0⟩ := valueOf_isSome_of_lt (hI.addr_lt_length ham)
    obtain ⟨hE, hE1, hE2⟩ := hI.entries_split hk hv0
    obtain ⟨h1, e1, hlen, hv, hkk, _, hn, hp⟩ := setValue_some s.heap v (hI.addr_lt_length ham)
    have hna := hI.not_mem_mid
    have hI1 : Inv { s with heap := h1 } (l1 ++ a :: l2) :=
      ⟨hI.list.same_links hn hp, fun k1 a1 => by
        show (k1, a1) ∈ s.nodeMap_ ↔ a1 ∈ l1 ++ a :: l2 ∧ keyOf h1 a1 = some k1
        rw [hkk, hI.index], hI.mapNodup, hI.size_eq, hI.capRange, hI.bound⟩
    have hsf : specFind (entries s) k = some v0 := by
      rw [hE, specFind_append_of_forall_ne _ hE1]
      simp [specFind]
    refine ⟨{ s with heap := h1 }, _, ?_, hI1, ?_, rfl⟩
    · simp [set, hc, hf, updateExisitingNode, e1]
    · have hc1 : ∀ (l0 : List Nat), (∀ b ∈ l0, b ≠ a) →
          l0.filterMap (entryOf h1) = l0.filterMap (entryOf s.heap) := by
        intro l0 h0
        apply filterMap_entryOf_congr (fun b _ => hkk b)
        intro b hb
        rw [hv, if_neg (h0 b hb)]
      have hn1 : ∀ b ∈ l1, b ≠ a := by
        rintro b hb rfl
        exact hna (List.mem_append_left _ hb)
      have hn2 : ∀ b ∈ l2, b ≠ a := by
        rintro b hb rfl
        exact hna (List.mem_append_right _ hb)
      have hnew : entryOf h1 a = some (k, v) :=
        entryOf_eq (by rw [hkk, hk]) (by rw [hv, if_pos rfl])
      rw [hI1.entries_eq]
      simp only [specSet, hc, if_false, hsf]
      rw [hE, putValue_append, putValue_of_forall_ne v hE1]
      simp only [putValue, if_true]
      rw [putValue_of_forall_ne v hE2, List.filterMap_append, List.filterMap_cons, hnew]
      show List.filterMap (entryOf h1) l1 ++ (k, v) :: List.filterMap (entryOf h1) l2 = _
      rw [hc1 l1 hn1, hc1 l2 hn2]
  | none =>
    have hpos : 0 < s.capacity_ := by omega
    have hle : (s.nodeMap_.length : Int) ≤ s.capacity_ := by
      have := hI.bound
      rw [hI.size_eq]
      omega
    have hsz := sizeGeCapacity_eq hpos hI.capRange.2 hle
    have hsf : specFind (entries s) k = none := specFind_of_forall_ne (hI.specFind_none hf)
    by_cases hfull : s.capacity_ ≤ (s.nodeMap_.length : Int)
    · cases l with
      | nil =>
        have := hI.size_eq
        simp at this
        rw [this] at hfull
        simp at hfull
        omega
      | cons a0 l0 =>
        obtain ⟨h1, k0, hk0, e1, d1, hI1⟩ := hI.evict
        have hf1 : mapFind (mapErase s.nodeMap_ k0) k = none := by
          cases hq : mapFind (mapErase s.nodeMap_ k0) k with
          | none => rfl
          | some b =>
            have := (mem_mapErase.1 (mapFind_some hq)).1
            exact absurd this (mapFind_none hf b)
        have hroom : (l0.length : Int) < s.capacity_ := by
          have := hI.size_eq
          simp only [List.length_cons] at this
          omega
        obtain ⟨s2, e2, hI2, hE2, hc2⟩ := hI1.addNew k v hf1 hroom
        refine ⟨s2, _, ?_, hI2, ?_, hc2⟩
        · simp only [set, hc, if_false, hf, addNewNode, hsz, hfull, decide_True, if_true, e1,
            Option.bind_eq_bind, Option.some_bind]
          exact e2
        · rw [hE2, hI1.entries_eq]
          simp only [specSet, hc, if_false, hsf, hI.entries_length, hfull, if_true]
          rw [hI.entries_eq]
          obtain ⟨n, hn⟩ := getElem?_isSome_of_lt (hI.addr_lt_length (List.mem_cons_self a0 l0))
          have : entryOf s.heap a0 = some (n.key_, n.value_) := by simp [entryOf, hn]
          rw [List.filterMap_cons, this]
          simp only [List.drop_succ_cons, List.drop_zero]
          show List.filterMap (entryOf h1) l0 ++ _ = _
          rw [filterMap_entryOf_congr (fun b _ => d1.key_eq b) (fun b _ => d1.value_eq b)]
    · have hroom : (l.length : Int) < s.capacity_ := by
        rw [← hI.size_eq]
        omega
      obtain ⟨s2, e2, hI2, hE2, hc2⟩ := hI.addNew k v hf hroom
      refine ⟨s2, _, ?_, hI2, ?_, hc2⟩
      · simp only [set, hc, if_false, hf, addNewNode, hsz, hfull, decide_False, if_false,
          Option.bind_eq_bind, Option.some_bind]
        exact e2
      · rw [hE2]
        simp only [specSet, hc, if_false, hsf, hI.entries_length, hfull, if_false]

/-- A hit of `set`: only the value of the node found is replaced. -/
theorem set_hit {s : LruCache K V} {l : List Nat} (hI : Inv s l) (hc : 0 < s.capacity_) {k : K}
    {a : Nat} (hf : mapFind s.nodeMap_ k = some a) (v : V) :
    ∃ h1 v0 E1 E2, valueOf s.heap a = some v0 ∧
      set s k v = some { s with heap := h1 } ∧ h1.length = s.heap.length ∧
      (∀ b, valueOf h1 b = if b = a then some v else valueOf s.heap b) ∧
      (∀ b, keyOf h1 b = keyOf s.heap b) ∧ (∀ b, countOf h1 b = countOf s.heap b) ∧
      (∀ b, nextOf h1 b = nextOf s.heap b) ∧ (∀ b, prevOf h1 b = prevOf s.heap b) ∧
      Inv { s with heap := h1 } l ∧ entries s = E1 ++ (k, v0) :: E2 ∧
      (∀ e ∈ E1, e.1 ≠ k) ∧ (∀ e ∈ E2, e.1 ≠ k) ∧
      entries { s with heap := h1 } = E1 ++ (k, v) :: E2 := by
  have hc0 : ¬ s.capacity_ ≤ 0 := by omega
  obtain ⟨ham, hk⟩ := hI.find_mem hf
  obtain ⟨l1, l2, rfl⟩ := List.append_of_mem ham
  obtain ⟨v0, hv0⟩ := valueOf_isSome_of_lt (hI.addr_lt_length ham)
  obtain ⟨hE, hE1, hE2⟩ := hI.entries_split hk hv0
  obtain ⟨h1, e1, hlen, hv, hkk, hcc, hn, hp⟩ := setValue_some s.heap v (hI.addr_lt_length ham)
  have hna := hI.not_mem_mid
  have hI1 : Inv { s with heap := h1 } (l1 ++ a :: l2) :=
    ⟨hI.list.same_links hn hp, fun k1 a1 => by
      show (k1, a1) ∈ s.nodeMap_ ↔ a1 ∈ l1 ++ a :: l2 ∧ keyOf h1 a1 = some k1
      rw [hkk, hI.index], hI.mapNodup, hI.size_eq, hI.capRange, hI.bound⟩
  refine ⟨h1, v0, _, _, hv0, ?_, hlen, hv, hkk, hcc, hn, hp, hI1, hE, hE1, hE2, ?_⟩
  · simp [set, hc0, hf, updateExisitingNode, e1]
  · have hc1 : ∀ (l0 : List Nat), (∀ b ∈ l0, b ≠ a) →
        l0.filterMap (entryOf h1) = l0.filterMap (entryOf s.heap) := by
      intro l0 h0
      apply filterMap_entryOf_congr (fun b _ => hkk b)
      intro b hb
      rw [hv, if_neg (h0 b hb)]
    have hn1 : ∀ b ∈ l1, b ≠ a := by
      rintro b hb rfl
      exact hna (List.mem_append_left _ hb)
    have hn2 : ∀ b ∈ l2, b ≠ a := by
      rintro b hb rfl
      exact hna (List.mem_append_right _ hb)
    have hnew : entryOf h1 a = some (k, v) :=
      entryOf_eq (by rw [hkk, hk]) (by rw [hv, if_pos rfl])
    rw [hI1.entries_eq, List.filterMap_append, List.filterMap_cons, hnew]
    show List.filterMap (entryOf h1) l1 ++ (k, v) :: List.filterMap (entryOf h1) l2 = _
    rw [hc1 l1 hn1, hc1 l2 hn2]

theorem specFind_split_ne {E1 E2 : List (K × V)} {k k1 : K} (v w : V) (hne : k1 ≠ k) :
    specFind (E1 ++ (k, v) :: E2) k1 = specFind (E1 ++ (k, w) :: E2) k1 := by
  induction E1 with
  | nil =>
    have h1 : (k, v).1 ≠ k1 := fun h => hne h.symm
    have h2 : (k, w).1 ≠ k1 := fun h => hne h.symm
    simp only [List.nil_append, specFind, if_neg h1, if_neg h2]
  | cons x E1 ih =>
    rw [List.cons_append, List.cons_append]
    by_cases hx : x.1 = k1
    · simp only [specFind, if_pos hx]
    · simp only [specFind, if_neg hx, ih]

end SimulationSet

/-! ## Sequences of calls -/

section Runs

variable {K V : Type} [DecidableEq K] [Inhabited V]

theorem get1_eq (s : LruCache K V) (k : K) :
    get1 s k = (get s k default).map (fun r => (r.1, r.2.2)) := by
  unfold get1
  dsimp only
  generalize get s k default = r
  cases r with
  | none => rfl
  | some r => rfl

theorem step_sim {s : LruCache K V} {l : List Nat} (hI : Inv s l) (c : Call K V) :
    ∃ s1 l1, step s c = some s1 ∧ Inv s1 l1 ∧
      entries s1 = specStep s.capacity_ (entries s) c ∧ s1.capacity_ = s.capacity_ := by
  cases c with
  | set k v => exact set_sim hI k v
  | get k out =>
    obtain ⟨h1, l1, e, hI1, hE, _⟩ := get_sim hI k out
    exact ⟨_, l1, by simp [step, e], hI1, hE, rfl⟩
  | get1 k =>
    obtain ⟨h1, l1, e, hI1, hE, _⟩ := get_sim hI k (default : V)
    exact ⟨_, l1, by simp [step, get1_eq, e], hI1, hE, rfl⟩
  | remove k =>
    obtain ⟨h1, l1, e, hI1, hE, _⟩ := remove_sim hI k
    exact ⟨_, l1, e, hI1, hE, rfl⟩

theorem run_sim (cs : List (Call K V)) :
    ∀ {s : LruCache K V} {l : List Nat}, Inv s l →
      ∃ s1 l1, run s cs = some s1 ∧ Inv s1 l1 ∧
        entries s1 = specRun s.capacity_ (entries s) cs ∧ s1.capacity_ = s.capacity_ := by
  induction cs with
  | nil =>
    intro s l hI
    exact ⟨s, l, rfl, hI, rfl, rfl⟩
  | cons c cs ih =>
    intro s l hI
    obtain ⟨s1, l1, e1, hI1, hE1, hc1⟩ := step_sim hI c
    obtain ⟨s2, l2, e2, hI2, hE2, hc2⟩ := ih hI1
    refine ⟨s2, l2, by simp [run, e1, e2], hI2, ?_, hc2.trans hc1⟩
    rw [hE2, hE1, hc1]
    rfl

theorem run_append (cs1 cs2 : List (Call K V)) (s : LruCache K V) :
    run s (cs1 ++ cs2) = (run s cs1).bind (fun s1 => run s1 cs2) := by
  induction cs1 generalizing s with
  | nil => rfl
  | cons c cs ih =>
    simp only [List.cons_append, run]
    cases step s c with
    | none => rfl
    | some s1 => simp [ih]

theorem new_inv [Inhabited K] (capacity : Int) (h0 : INT_MIN ≤ capacity)
    (h1 : capacity ≤ INT_MAX) :
    ∃ s0 : LruCache K V, LruCache.new capacity = some s0 ∧ Inv s0 [] ∧
      s0.capacity_ = capacity ∧ entries s0 = [] := by
  refine ⟨_, rfl, ⟨⟨?_, ?_, ?_⟩, ?_, ?_, rfl, ⟨h0, h1⟩, ?_⟩, rfl, rfl⟩
  · show ([0, 1] : List Nat).Nodup
    decide
  · exact ⟨rfl, rfl, trivial⟩
  · rfl
  · intro k a
    constructor
    · intro h
      cases h
    · rintro ⟨h, _⟩
      cases h
  · exact List.nodup_nil
  · show ((0 : Nat) : Int) ≤ max capacity 0
    simp

theorem runFresh_sim [Inhabited K] (capacity : Int) (h0 : INT_MIN ≤ capacity)
    (h1 : capacity ≤ INT_MAX) (cs : List (Call K V)) :
    ∃ s l, runFresh capacity cs = some s ∧ Inv s l ∧
      entries s = specRun capacity [] cs ∧ s.capacity_ = capacity := by
  obtain ⟨s0, e0, hI0, hc0, hE0⟩ := new_inv (K := K) (V := V) capacity h0 h1
  obtain ⟨s1, l1, e1, hI1, hE1, hc1⟩ := run_sim cs hI0
  refine ⟨s1, l1, by simp [runFresh, e0, e1], hI1, ?_, hc1.trans hc0⟩
  rw [hE1, hE0, hc0]

theorem Reachable.inv [Inhabited K] {s : LruCache K V} (hr : Reachable s) : ∃ l, Inv s l := by
  obtain ⟨capacity, cs, h0, h1, e⟩ := hr
  obtain ⟨s1, l, e1, hI, _, _⟩ := runFresh_sim (K := K) (V := V) capacity h0 h1 cs
  rw [e] at e1
  exact ⟨l, (Option.some.inj e1) ▸ hI⟩

theorem Reachable.step [Inhabited K] {s s1 : LruCache K V} (hr : Reachable s) {c : Call K V}
    (e : step s c = some s1) : Reachable s1 := by
  obtain ⟨capacity, cs, h0, h1, e0⟩ := hr
  refine ⟨capacity, cs ++ [c], h0, h1, ?_⟩
  unfold runFresh at e0 ⊢
  cases hn : (LruCache.new capacity : Option (LruCache K V)) with
  | none => simp [hn] at e0
  | some s0 =>
    simp only [hn, Option.some_bind] at e0 ⊢
    simp [run_append, e0, run, e]

theorem get_state_indep (s : LruCache K V) (k : K) (o1 o2 : V) :
    (get s k o1).map (fun r => r.1) = (get s k o2).map (fun r => r.1) := by
  unfold get
  cases mapFind s.nodeMap_ k with
  | none => rfl
  | some a => rfl

theorem twoEntries_reachable : Reachable twoEntries :=
  ⟨2, [.set 1 10, .set 2 20], by decide, by decide, by decide⟩

theorem mapFind_eq_none_of_not_mem_keys {s : LruCache K V} {k : K} (hk : k ∉ keys s) :
    mapFind s.nodeMap_ k = none := by
  cases hf : mapFind s.nodeMap_ k with
  | none => rfl
  | some a => exact absurd (List.mem_map.2 ⟨(k, a), mapFind_some hf, rfl⟩) hk

theorem get_miss (s : LruCache K V) (k : K) (out : V) (hk : k ∉ keys s) :
    get s k out = some (s, false, out) := by
  simp [get, mapFind_eq_none_of_not_mem_keys hk]

theorem Inv.stored_eq {s : LruCache K V} {l : List Nat} (hI : Inv s l) (k : K) :
    stored s k = specFind (entries s) k := by
  unfold stored
  cases hf : mapFind s.nodeMap_ k with
  | none => rw [specFind_of_forall_ne (hI.specFind_none hf)]; rfl
  | some a =>
    obtain ⟨ham, hk⟩ := hI.find_mem hf
    obtain ⟨l1, l2, rfl⟩ := List.append_of_mem ham
    obtain ⟨v, hv⟩ := valueOf_isSome_of_lt (hI.addr_lt_length ham)
    obtain ⟨hE, hE1, _⟩ := hI.entries_split hk hv
    rw [hE, specFind_append_of_forall_ne _ hE1]
    simp [specFind, hv]

theorem Inv.entries_keys_nodup {s : LruCache K V} {l : List Nat} (hI : Inv s l) :
    ((entries s).map (fun e => e.1)).Nodup := by
  rw [hI.entries_eq]
  have hnd : l.Nodup := (List.nodup_append.1 (List.nodup_cons.1 hI.list.nodup).2).1
  have key : ∀ (l0 : List Nat), (∀ b ∈ l0, b ∈ l) → l0.Nodup →
      ((l0.filterMap (entryOf s.heap)).map (fun e => e.1)).Nodup := by
    intro l0
    induction l0 with
    | nil => intro _ _; exact List.nodup_nil
    | cons x l0 ih =>
      intro hsub hn
      have ih1 := ih (fun b hb => hsub b (List.mem_cons_of_mem _ hb)) (List.nodup_cons.1 hn).2
      rw [List.filterMap_cons]
      cases hx : entryOf s.heap x with
      | none => exact ih1
      | some e =>
        simp only [List.map_cons, List.nodup_cons]
        refine ⟨?_, ih1⟩
        intro hm
        obtain ⟨e1, he1, hk1⟩ := List.mem_map.1 hm
        obtain ⟨b, hb, hkb, _⟩ := mem_filterMap_entryOf he1
        have hk1a : e1.1 = e.1 := hk1
        rw [hk1a] at hkb
        have := hI.key_inj (hsub b (List.mem_cons_of_mem _ hb)) (hsub x (by simp)) hkb
          (entryOf_some hx).1
        exact (List.nodup_cons.1 hn).1 (this ▸ hb)
  exact key l (fun b hb => hb) hnd

theorem Inv.mapFind_none_of_specFind {s : LruCache K V} {l : List Nat} (hI : Inv s l) {k : K}
    (h : specFind (entries s) k = none) : mapFind s.nodeMap_ k = none := by
  cases hf : mapFind s.nodeMap_ k with
  | none => rfl
  | some a =>
    obtain ⟨_, _, v, E1, E2, _, _, _, _, hE, hE1, _, _⟩ := get_hit hI hf (default : V)
    rw [hE, specFind_split hE1] at h
    exact Option.noConfusion h

theorem not_mem_keys_of_mapFind_none {s : LruCache K V} {k : K}
    (h : mapFind s.nodeMap_ k = none) : k ∉ keys s := by
  intro hm
  obtain ⟨e, he, hek⟩ := List.mem_map.1 hm
  have hek1 : e.1 = k := hek
  have hee : (k, e.2) = e := by rw [← hek1]
  exact mapFind_none h e.2 (hee ▸ he)

theorem Inv.get_of_specFind {s : LruCache K V} {l : List Nat} (hI : Inv s l) {k : K} {v : V}
    (h : specFind (entries s) k = some v) (out : V) :
    ∃ h1 l1, get s k out = some ({ s with heap := h1 }, true, v) ∧
      Inv { s with heap := h1 } l1 ∧
      entries { s with heap := h1 } = dropKey (entries s) k ++ [(k, v)] ∧
      SameData s.heap h1 := by
  obtain ⟨h1, l1, e, hI1, hE, d1⟩ := get_sim hI k out
  simp only [specGet, h] at e hE
  exact ⟨h1, l1, e, hI1, hE, d1⟩

theorem Inv.get_of_specFind_none {s : LruCache K V} {l : List Nat} (hI : Inv s l) {k : K}
    (h : specFind (entries s) k = none) (out : V) : get s k out = some (s, false, out) := by
  simp [get, hI.mapFind_none_of_specFind h]

theorem stored_congr {s : LruCache K V} {h1 : Heap K V} (d : SameData s.heap h1) (k : K) :
    stored { s with heap := h1 } k = stored s k := by
  unfold stored
  cases mapFind s.nodeMap_ k with
  | none => rfl
  | some a => exact d.value_eq a

theorem specFind_dropKey_ne {es : List (K × V)} {k k1 : K} (hne : k1 ≠ k) :
    specFind (dropKey es k) k1 = specFind es k1 := by
  induction es with
  | nil => rfl
  | cons x es ih =>
    by_cases hx : x.1 = k
    · have hx1 : x.1 ≠ k1 := by rw [hx]; exact Ne.symm hne
      simp only [dropKey, specFind, if_pos hx, if_neg hx1, ih]
    · by_cases hx1 : x.1 = k1
      · simp only [dropKey, specFind, if_neg hx, if_pos hx1]
      · simp only [dropKey, specFind, if_neg hx, if_neg hx1, ih]

theorem specFind_dropKey_self (es : List (K × V)) (k : K) : specFind (dropKey es k) k = none :=
  specFind_of_forall_ne (fun _ he => (mem_dropKey.1 he).2)

theorem specFind_putValue_self {es : List (K × V)} {k : K} {v0 : V} (v : V)
    (h : specFind es k = some v0) : specFind (putValue es k v) k = some v := by
  induction es with
  | nil => simp [specFind] at h
  | cons x es ih =>
    by_cases hx : x.1 = k
    · simp only [putValue, hx, if_true, specFind]
    · simp only [specFind, hx, if_false] at h
      simp only [putValue, hx, if_false, specFind]
      exact ih h

theorem putValue_keys (es : List (K × V)) (k : K) (v : V) :
    (putValue es k v).map (fun e => e.1) = es.map (fun e => e.1) := by
  induction es with
  | nil => rfl
  | cons x es ih =>
    by_cases hx : x.1 = k
    · simp only [putValue, hx, if_true, List.map_cons, ih]
    · simp only [putValue, hx, if_false, List.map_cons, ih]

theorem specFind_specSet_self {es : List (K × V)} {c : Int} (hc : 0 < c) (k : K) (v : V) :
    specFind (specSet c es k v) k = some v := by
  have hc1 : ¬ c ≤ 0 := by omega
  simp only [specSet, hc1, if_false]
  cases hf : specFind es k with
  | some v0 => exact specFind_putValue_self v hf
  | none =>
    have hall := specFind_none_iff.1 hf
    have : ∀ e ∈ (if c ≤ (es.length : Int) then es.drop 1 else es), e.1 ≠ k := by
      intro e he
      split at he
      · exact hall e (List.mem_of_mem_drop he)
      · exact hall e he
    show specFind (_ ++ [(k, v)]) k = some v
    rw [specFind_append_of_forall_ne _ this]
    simp [specFind]

theorem Inv.count_keys_of_specFind {s : LruCache K V} {l : List Nat} (hI : Inv s l) {k : K}
    {v : V} (h : specFind (entries s) k = some v) :
    (keys s).count k = 1 ∧ ((entries s).map (fun e => e.1)).count k = 1 := by
  constructor
  · apply List.count_eq_one_of_mem hI.mapNodup
    by_contra hk
    have := hI.specFind_none (mapFind_eq_none_of_not_mem_keys hk)
    rw [specFind_of_forall_ne this] at h
    exact Option.noConfusion h
  · apply List.count_eq_one_of_mem hI.entries_keys_nodup
    exact List.mem_map.2 ⟨(k, v), specFind_some_mem h, rfl⟩

/-- Setting keys that are pairwise distinct and not yet cached keeps the last
`n` associations, in the order of the calls. -/
theorem specRun_sets {n : Nat} (hn : 0 < n) :
    ∀ (kvs es : List (K × V)), ((es ++ kvs).map (fun e => e.1)).Nodup → es.length ≤ n →
      specRun (n : Int) es (kvs.map (fun e => Call.set e.1 e.2))
        = (es ++ kvs).drop ((es ++ kvs).length - n)
  | [], es, _, hl => by
    have : (es ++ []).length - n = 0 := by simp; omega
    rw [this]
    simp [specRun]
  | (k, v) :: r, es, hnd, hl => by
    have hk : ∀ e ∈ es, e.1 ≠ k := by
      intro e he hek
      rw [List.map_append, List.nodup_append] at hnd
      exact hnd.2.2 (List.mem_map.2 ⟨e, he, hek⟩) (by simp)
    have hf : specFind es k = none := specFind_of_forall_ne hk
    have hc0 : ¬ ((n : Int) ≤ 0) := by omega
    simp only [List.map_cons, specRun, specStep, specSet, hc0, if_false, hf]
    by_cases hfull : (n : Int) ≤ (es.length : Int)
    · simp only [hfull, if_true]
      cases es with
      | nil => simp at hfull; omega
      | cons x es0 =>
        simp only [List.drop_succ_cons, List.drop_zero]
        have hl0 : es0.length + 1 = n := by
          simp only [List.length_cons] at hl hfull
          omega
        have hnd1 : (((es0 ++ [(k, v)]) ++ r).map (fun e => e.1)).Nodup := by
          have := hnd
          simp only [List.cons_append, List.map_cons, List.nodup_cons] at this
          simpa using this.2
        rw [specRun_sets hn r (es0 ++ [(k, v)]) hnd1 (by simp; omega)]
        have e1 : (es0 ++ [(k, v)] ++ r).length - n = r.length := by simp; omega
        have e2 : (x :: es0 ++ (k, v) :: r).length - n = r.length + 1 := by simp; omega
        rw [e1, e2]
        simp
    · simp only [hfull, if_false]
      have hnd1 : (((es ++ [(k, v)]) ++ r).map (fun e => e.1)).Nodup := by
        simpa using hnd
      rw [specRun_sets hn r (es ++ [(k, v)]) hnd1 (by simp; omega)]
      simp

end Runs

/-! ## Last touch and the recency ordering -/

section LastTouch

variable {K V : Type} [DecidableEq K] [Inhabited V]

theorem dropKey_sublist (es : List (K × V)) (k : K) : (dropKey es k).Sublist es := by
  induction es with
  | nil => exact List.Sublist.refl _
  | cons x es ih =>
    by_cases hx : x.1 = k
    · simp only [dropKey, if_pos hx]
      exact ih.cons x
    · simp only [dropKey, if_neg hx]
      exact ih.cons₂ x

theorem TouchSorted.sub {i j : Nat} {ks ks1 : List K} {t t1 : K → Option Nat}
    (h : TouchSorted i ks t) (hs : ks1.Sublist ks) (ht : ∀ k ∈ ks1, t1 k = t k) (hij : i ≤ j) :
    TouchSorted j ks1 t1 := by
  constructor
  · apply List.Pairwise.imp_of_mem _ (h.1.sublist hs)
    intro a b ha hb hab
    obtain ⟨x, y, e1, e2, hxy⟩ := hab
    exact ⟨x, y, by rw [ht a ha, e1], by rw [ht b hb, e2], hxy⟩
  · intro k hk
    obtain ⟨x, e, hx⟩ := h.2 k (hs.subset hk)
    exact ⟨x, by rw [ht k hk, e], by omega⟩

theorem TouchSorted.snoc {i : Nat} {ks ks1 : List K} {t t1 : K → Option Nat} {k : K}
    (h : TouchSorted i ks t) (hs : ks1.Sublist ks) (hk : k ∉ ks1)
    (ht : ∀ a, a ≠ k → t1 a = t a) (hti : t1 k = some i) :
    TouchSorted (i + 1) (ks1 ++ [k]) t1 := by
  have hne : ∀ a ∈ ks1, a ≠ k := fun a ha e => hk (e ▸ ha)
  have h1 := h.sub (j := i) hs (fun a ha => ht a (hne a ha)) (Nat.le_refl i)
  constructor
  · rw [List.pairwise_append]
    refine ⟨h1.1, List.pairwise_singleton _ _, ?_⟩
    intro a ha b hb
    rw [List.mem_singleton.1 hb]
    obtain ⟨x, e, hx⟩ := h1.2 a ha
    exact ⟨x, i, e, hti, hx⟩
  · intro a ha
    rcases List.mem_append.1 ha with h2 | h2
    · obtain ⟨x, e, hx⟩ := h1.2 a h2
      exact ⟨x, e, by omega⟩
    · rw [List.mem_singleton.1 h2]
      exact ⟨i, hti, by omega⟩

theorem Inv.specFind_of_mapFind {s : LruCache K V} {l : List Nat} (hI : Inv s l) {k : K}
    {a : Nat} (hf : mapFind s.nodeMap_ k = some a) : ∃ v, specFind (entries s) k = some v := by
  obtain ⟨v, hv⟩ := valueOf_isSome_of_lt (hI.addr_lt_length (hI.find_mem hf).1)
  refine ⟨v, ?_⟩
  rw [← hI.stored_eq]
  simp [stored, hf, hv]

theorem step_touch {s s1 : LruCache K V} {l : List Nat} (hI : Inv s l) {c : Call K V}
    (e : step s c = some s1) {i : Nat} {t : K → Option Nat}
    (h : TouchSorted i ((entries s).map (fun e => e.1)) t) :
    TouchSorted (i + 1) ((entries s1).map (fun e => e.1))
      (fun key => if touches s c key then some i else t key) := by
  obtain ⟨s2, l2, e2, _, hE, _⟩ := step_sim hI c
  rw [e] at e2
  have hs : s1 = s2 := Option.some.inj e2
  subst hs
  rw [hE]
  have hget : ∀ (k : K) (out : V) (c1 : Call K V),
      (∀ key, touches s c1 key = (decide (k = key) && (mapFind s.nodeMap_ k).isSome)) →
      TouchSorted (i + 1) ((specGet (entries s) k out).1.map (fun e => e.1))
        (fun key => if touches s c1 key then some i else t key) := by
    intro k out c1 hc1
    cases hf : mapFind s.nodeMap_ k with
    | none =>
      have hsf := specFind_of_forall_ne (hI.specFind_none hf)
      simp only [specGet, hsf]
      apply h.sub (List.Sublist.refl _) _ (by omega)
      intro a _
      simp [hc1, hf]
    | some a =>
      obtain ⟨v, hsf⟩ := hI.specFind_of_mapFind hf
      simp only [specGet, hsf, List.map_append, List.map_cons, List.map_nil]
      apply h.snoc ((dropKey_sublist (entries s) k).map _)
      · intro hm
        obtain ⟨x, hx, hxk⟩ := List.mem_map.1 hm
        exact (mem_dropKey.1 hx).2 hxk
      · intro b hb
        have : ¬ k = b := fun h => hb h.symm
        simp [hc1, this]
      · simp [hc1, hf]
  cases c with
  | set k v =>
    by_cases hc : s.capacity_ ≤ 0
    · have hnot : ¬ 0 < s.capacity_ := by omega
      simp only [specStep, specSet, hc, if_true]
      apply h.sub (List.Sublist.refl _) _ (by omega)
      intro a _
      simp [touches, hnot]
    · have hpos : 0 < s.capacity_ := by omega
      cases hf : mapFind s.nodeMap_ k with
      | some a =>
        obtain ⟨v0, hsf⟩ := hI.specFind_of_mapFind hf
        simp only [specStep, specSet, hc, if_false, hsf, putValue_keys]
        apply h.sub (List.Sublist.refl _) _ (by omega)
        intro b _
        simp [touches, hf]
      | none =>
        have hall := hI.specFind_none hf
        have hsf := specFind_of_forall_ne hall
        simp only [specStep, specSet, hc, if_false, hsf, List.map_append, List.map_cons,
          List.map_nil]
        have hsub : (List.map (fun e => e.1)
            (if s.capacity_ ≤ ((entries s).length : Int) then List.drop 1 (entries s)
              else entries s)).Sublist (List.map (fun e => e.1) (entries s)) := by
          apply List.Sublist.map
          split
          · exact List.drop_sublist 1 _
          · exact List.Sublist.refl _
        apply h.snoc hsub
        · intro hm
          obtain ⟨x, hx, hxk⟩ := List.mem_map.1 (hsub.subset hm)
          exact hall x hx hxk
        · intro b hb
          have : ¬ k = b := fun h => hb h.symm
          simp [touches, this]
        · simp [touches, hf, hpos]
  | get k out => exact hget k out _ (fun key => rfl)
  | get1 k => exact hget k default _ (fun key => rfl)
  | remove k =>
    simp only [specStep, specRemove]
    apply h.sub ((dropKey_sublist (entries s) k).map _) _ (by omega)
    intro a _
    simp [touches]

theorem runTouch_sim (cs : List (Call K V)) :
    ∀ {s : LruCache K V} {l : List Nat} {i : Nat} {t : K → Option Nat}, Inv s l →
      TouchSorted i ((entries s).map (fun e => e.1)) t →
      ∃ s1 t1, runTouch s t i cs = some (s1, t1) ∧ run s cs = some s1 ∧
        TouchSorted (i + cs.length) ((entries s1).map (fun e => e.1)) t1 := by
  induction cs with
  | nil =>
    intro s l i t _ h
    exact ⟨s, t, rfl, rfl, h⟩
  | cons c cs ih =>
    intro s l i t hI h
    obtain ⟨s1, l1, e1, hI1, _, _⟩ := step_sim hI c
    obtain ⟨s2, t2, e2, e3, h2⟩ := ih hI1 (step_touch hI e1 h)
    refine ⟨s2, t2, by simp [runTouch, e1, e2], by simp [run, e1, e3], ?_⟩
    have : i + (c :: cs).length = i + 1 + cs.length := by simp; omega
    rw [this]
    exact h2

end LastTouch

/-! ## Nodes outside the list keep their content -/

section Frames

variable {K V : Type} [DecidableEq K] [Inhabited V]

/-- The guard of `removeNode` holds for every node of the list. -/
theorem guard_of_mem_list {s : LruCache K V} {l1 l2 : List Nat} {a : Nat}
    (hI : ListInv s.heap s.dummyHead_ s.dummyTail_ (l1 ++ a :: l2)) :
    expired s [a] (prevOf s.heap a) = false ∧ (nextOf s.heap a).isSome = true := by
  have hlk := hI.linked
  rw [List.append_assoc, List.cons_append] at hlk
  obtain ⟨pre, hpm, _, hprev, hr⟩ := Linked.split hlk
  obtain ⟨nxt, r, hnr⟩ : ∃ nxt r, l2 ++ [s.dummyTail_] = nxt :: r := by
    cases l2 with
    | nil => exact ⟨_, _, rfl⟩
    | cons c l2 => exact ⟨_, _, rfl⟩
  rw [hnr] at hr
  have hown : owned s [a] pre = true := by
    apply owned_of_mem_list [a] hI
    rcases List.mem_cons.1 hpm with e | e
    · simp [e]
    · simp [e]
  exact ⟨by simp [expired, hprev, hown], by rw [hr.1]; rfl⟩

theorem Inv.sentinel_not_mem {s : LruCache K V} {l : List Nat} (hI : Inv s l) :
    s.dummyHead_ ∉ l ∧ s.dummyTail_ ∉ l ∧ s.dummyHead_ < s.heap.length ∧
      s.dummyTail_ < s.heap.length := by
  have hnd := List.nodup_cons.1 hI.list.nodup
  refine ⟨fun h => hnd.1 (List.mem_append_left _ h),
    fun h => (List.nodup_append.1 hnd.2).2.2 h (by simp),
    hI.list.node_lt_length _ (by simp), hI.list.node_lt_length _ (by simp)⟩

/-- The part of `addNewNode` after the fullness test, with the content of the nodes. -/
theorem Inv.addNew_data {s : LruCache K V} {l : List Nat} (hI : Inv s l) (k : K) (v : V)
    (hfind : mapFind s.nodeMap_ k = none) (hroom : (l.length : Int) < s.capacity_) :
    ∃ h1, (insertNode { s with heap := (alloc s.heap k v).1 } (alloc s.heap k v).2).bind
        (fun s2 => some { s2 with nodeMap_ := mapAssign s2.nodeMap_ k (alloc s.heap k v).2 })
        = some { s with heap := h1, nodeMap_ := mapAssign s.nodeMap_ k s.heap.length } ∧
      (∀ b, b < s.heap.length → keyOf h1 b = keyOf s.heap b ∧
        valueOf h1 b = valueOf s.heap b ∧ countOf h1 b = countOf s.heap b) ∧
      Inv { s with heap := h1, nodeMap_ := mapAssign s.nodeMap_ k s.heap.length }
        (l ++ [s.heap.length]) := by
  obtain ⟨h1, e1, _, hk, hv, hc, hI1⟩ := hI.append k v hfind hroom
  refine ⟨h1, ?_, ?_, hI1⟩
  · have : (alloc s.heap k v).2 = s.heap.length := rfl
    rw [this, e1]
    rfl
  · intro b hb
    have hne : b ≠ s.heap.length := Nat.ne_of_lt hb
    exact ⟨by rw [hk, if_neg hne], by rw [hv, if_neg hne], by rw [hc, if_neg hne]⟩

/-- A `set` leaves the sentinels in place and changes the key, value and access
count of no node outside the list. -/
theorem set_frame {s : LruCache K V} {l : List Nat} (hI : Inv s l) (k : K) (v : V) :
    ∃ s1 l1, set s k v = some s1 ∧ Inv s1 l1 ∧ s1.dummyHead_ = s.dummyHead_ ∧
      s1.dummyTail_ = s.dummyTail_ ∧
      (∀ b, b < s.heap.length → b ∉ l → keyOf s1.heap b = keyOf s.heap b ∧
        valueOf s1.heap b = valueOf s.heap b ∧ countOf s1.heap b = countOf s.heap b) := by
  by_cases hc : s.capacity_ ≤ 0
  · exact ⟨s, l, by simp [set, hc], hI, rfl, rfl, fun b _ _ => ⟨rfl, rfl, rfl⟩⟩
  have hpos : 0 < s.capacity_ := by omega
  cases hf : mapFind s.nodeMap_ k with
  | some a =>
    obtain ⟨h1, _, _, _, _, e, _, hv, hkk, hcc, _, _, hI1, _⟩ := set_hit hI hpos hf v
    refine ⟨_, l, e, hI1, rfl, rfl, ?_⟩
    intro b _ hb
    have hne : b ≠ a := by
      rintro rfl
      exact hb (hI.find_mem hf).1
    exact ⟨hkk b, by rw [hv, if_neg hne], hcc b⟩
  | none =>
    have hle : (s.nodeMap_.length : Int) ≤ s.capacity_ := by
      have := hI.bound
      rw [hI.size_eq]
      omega
    have hsz := sizeGeCapacity_eq hpos hI.capRange.2 hle
    by_cases hfull : s.capacity_ ≤ (s.nodeMap_.length : Int)
    · cases l with
      | nil =>
        have := hI.size_eq
        simp at this
        rw [this] at hfull
        simp at hfull
        omega
      | cons a0 l0 =>
        obtain ⟨h1, k0, hk0, e1, d1, hI1⟩ := hI.evict
        have hf1 : mapFind (mapErase s.nodeMap_ k0) k = none := by
          cases hq : mapFind (mapErase s.nodeMap_ k0) k with
          | none => rfl
          | some b =>
            have := (mem_mapErase.1 (mapFind_some hq)).1
            exact absurd this (mapFind_none hf b)
        have hroom : (l0.length : Int) < s.capacity_ := by
          have := hI.size_eq
          simp only [List.length_cons] at this
          omega
        obtain ⟨h2, e2, hd2, hI2⟩ := hI1.addNew_data k v hf1 hroom
        refine ⟨_, _, ?_, hI2, rfl, rfl, ?_⟩
        · simp only [set, hc, if_false, hf, addNewNode, hsz, hfull, decide_True, if_true, e1,
            Option.bind_eq_bind, Option.some_bind]
          exact e2
        · intro b hb _
          have hb1 : b < h1.length := by rw [d1.length_eq]; exact hb
          obtain ⟨x1, x2, x3⟩ := hd2 b hb1
          exact ⟨x1.trans (d1.key_eq b), x2.trans (d1.value_eq b), x3.trans (d1.count_eq b)⟩
    · have hroom : (l.length : Int) < s.capacity_ := by
        rw [← hI.size_eq]
        omega
      obtain ⟨h2, e2, hd2, hI2⟩ := hI.addNew_data k v hf hroom
      refine ⟨_, _, ?_, hI2, rfl, rfl, fun b hb _ => hd2 b hb⟩
      simp only [set, hc, if_false, hf, addNewNode, hsz, hfull, decide_False, if_false,
        Option.bind_eq_bind, Option.some_bind]
      exact e2

/-- Every call leaves the sentinels in place and changes the key, value and
access count of no node outside the list. -/
theorem step_frame {s : LruCache K V} {l : List Nat} (hI : Inv s l) (c : Call K V) :
    ∃ s1 l1, step s c = some s1 ∧ Inv s1 l1 ∧ s1.dummyHead_ = s.dummyHead_ ∧
      s1.dummyTail_ = s.dummyTail_ ∧
      (∀ b, b < s.heap.length → b ∉ l → keyOf s1.heap b = keyOf s.heap b ∧
        valueOf s1.heap b = valueOf s.heap b ∧ countOf s1.heap b = countOf s.heap b) := by
  cases c with
  | set k v => exact set_frame hI k v
  | get k out =>
    obtain ⟨h1, l1, e, hI1, _, d1⟩ := get_sim hI k out
    exact ⟨_, l1, by simp [step, e], hI1, rfl, rfl,
      fun b _ _ => ⟨d1.key_eq b, d1.value_eq b, d1.count_eq b⟩⟩
  | get1 k =>
    obtain ⟨h1, l1, e, hI1, _, d1⟩ := get_sim hI k (default : V)
    exact ⟨_, l1, by simp [step, get1_eq, e], hI1, rfl, rfl,
      fun b _ _ => ⟨d1.key_eq b, d1.value_eq b, d1.count_eq b⟩⟩
  | remove k =>
    obtain ⟨h1, l1, e, hI1, _, d1⟩ := remove_sim hI k
    exact ⟨_, l1, e, hI1, rfl, rfl,
      fun b _ _ => ⟨d1.key_eq b, d1.value_eq b, d1.count_eq b⟩⟩

/-- Two arenas with the same fields at every address are equal. -/
theorem heap_ext {h h1 : Heap K V} (hn : ∀ b, nextOf h1 b = nextOf h b)
    (hp : ∀ b, prevOf h1 b = prevOf h b) (hk : ∀ b, keyOf h1 b = keyOf h b)
    (hv : ∀ b, valueOf h1 b = valueOf h b) (hc : ∀ b, countOf h1 b = countOf h b) :
    h1 = h := by
  apply List.ext_getElem?
  intro b
  have e1 := hn b
  have e2 := hp b
  have e3 := hk b
  have e4 := hv b
  have e5 := hc b
  unfold nextOf at e1
  unfold prevOf at e2
  unfold keyOf at e3
  unfold valueOf at e4
  unfold countOf at e5
  cases hx : h1[b]? with
  | none =>
    cases hy : h[b]? with
    | none => rfl
    | some n => simp [hx, hy] at e3
  | some n1 =>
    cases hy : h[b]? with
    | none => simp [hx, hy] at e3
    | some n =>
      simp only [hx, hy, Option.some_bind, Option.map_some', Option.some.injEq] at e1 e2 e3 e4 e5
      cases n1
      cases n
      simp only at e1 e2 e3 e4 e5
      simp [e1, e2, e3, e4, e5]

/-- Moving the node that is already before the tail sentinel changes nothing. -/
theorem Inv.promote_last {s : LruCache K V} {l : List Nat} {a : Nat} (hI : Inv s (l ++ [a])) :
    moveToMostRecent s a = some s := by
  have hL0 : ListInv s.heap s.dummyHead_ s.dummyTail_ (l ++ a :: []) := hI.list
  obtain ⟨h1, e1, d1, hL, hN1, hP1⟩ := removeNode_spec hL0
  have hlk := hI.list.linked
  rw [List.append_assoc] at hlk
  obtain ⟨pre, hpm, hpre, hprev, hr⟩ := Linked.split hlk
  obtain ⟨hnext, hprevT, _⟩ := hr
  have ham : a ∈ l ++ [a] := by simp
  have hnd := List.nodup_cons.1 hI.list.nodup
  have haT : a ≠ s.dummyTail_ := by
    rintro rfl
    exact (List.nodup_append.1 hnd.2).2.2 ham (by simp)
  have haH : a ≠ s.dummyHead_ := by
    rintro rfl
    exact hnd.1 (List.mem_append_left _ ham)
  have hal0 : a ∉ l := by
    have := (List.nodup_append.1 (List.nodup_append.1 hnd.2).1)
    exact fun h => this.2.2 h (by simp)
  have hap : a ≠ pre := by
    rintro rfl
    rcases List.mem_cons.1 hpm with e | e
    · exact haH e
    · exact hal0 e
  have hTp : s.dummyTail_ ≠ pre := by
    rintro e
    rw [← e, hI.list.tailNext] at hpre
    exact Option.noConfusion hpre
  have hal : a < h1.length := by rw [d1.length_eq]; exact hI.addr_lt_length ham
  have hnc : a ∉ s.dummyHead_ :: (l ++ [] ++ [s.dummyTail_]) := by
    intro hm
    rcases List.mem_cons.1 hm with e | e
    · exact haH e
    · rcases List.mem_append.1 e with e | e
      · rw [List.append_nil] at e
        exact hal0 e
      · exact haT (List.mem_singleton.1 e)
  obtain ⟨h2, e2, d2, _, hN2, hP2⟩ := insertNode_spec (s := { s with heap := h1 }) hL hnc hal
  have hd := d1.trans d2
  have hpT1 : prevOf h1 s.dummyTail_ = some pre := by
    rw [hP1, hnext, if_pos rfl, hprev]
  have heq : h2 = s.heap := by
    apply heap_ext _ _ hd.key_eq hd.value_eq hd.count_eq
    · intro b
      rw [hN2]
      show (if some b = prevOf h1 s.dummyTail_ then some a
        else if b = a then some s.dummyTail_ else nextOf h1 b) = nextOf s.heap b
      rw [hpT1]
      by_cases hb : b = pre
      · rw [if_pos (by rw [hb]), hb, hpre]
      · have hb1 : ¬ (some b = some pre) := fun e => hb (Option.some.inj e)
        rw [if_neg hb1]
        by_cases hba : b = a
        · rw [if_pos hba, hba, hnext]
        · rw [if_neg hba, hN1, if_neg hba, hprev, if_neg hb1]
    · intro b
      rw [hP2]
      show (if b = s.dummyTail_ then some a
        else if b = a then prevOf h1 s.dummyTail_ else prevOf h1 b) = prevOf s.heap b
      rw [hpT1]
      by_cases hb : b = s.dummyTail_
      · rw [if_pos hb, hb, hprevT]
      · rw [if_neg hb]
        by_cases hba : b = a
        · rw [if_pos hba, hba, hprev]
        · have hb1 : ¬ (some b = some s.dummyTail_) := fun e => hb (Option.some.inj e)
          rw [if_neg hba, hP1, hnext, if_neg hb1]
  rw [heq] at e2
  simp only [moveToMostRecent, e1, Option.bind_eq_bind, Option.some_bind]
  exact e2

/-- A second `get` of the same key repeats the first one and changes nothing. -/
theorem get_twice {s : LruCache K V} {l : List Nat} (hI : Inv s l) (k : K) (out : V) :
    ∃ s1 b v, get s k out = some (s1, b, v) ∧ get s1 k v = some (s1, b, v) := by
  cases hf : mapFind s.nodeMap_ k with
  | none =>
    have e : get s k out = some (s, false, out) := by simp [get, hf]
    exact ⟨s, false, out, e, e⟩
  | some a =>
    obtain ⟨ham, hk⟩ := hI.find_mem hf
    obtain ⟨l1, l2, rfl⟩ := List.append_of_mem ham
    obtain ⟨v, hv⟩ := valueOf_isSome_of_lt (hI.addr_lt_length ham)
    obtain ⟨h1, e1, d1, hI1⟩ := hI.promote
    have hv1 : valueOf h1 a = some v := by rw [d1.value_eq, hv]
    have e2 := hI1.promote_last
    refine ⟨{ s with heap := h1 }, true, v, by simp [get, hf, e1, hv1], ?_⟩
    have hf1 : mapFind ({ s with heap := h1 } : LruCache K V).nodeMap_ k = some a := hf
    simp only [get, hf1, e2, Option.bind_eq_bind, Option.some_bind]
    have hv2 : valueOf ({ s with heap := h1 } : LruCache K V).heap a = some v := hv1
    rw [hv2]
    rfl

end Frames

/-! ## Claims of the specification -/

section Claims

variable {K V : Type} [DecidableEq K] [Inhabited K] [Inhabited V]

/-- C1: for every capacity `N ≥ 0` that is a value of `int` and every finite
sequence of `set`, `get` and `remove` calls on a freshly constructed cache of
capacity `N`, after each call (after every initial part of the sequence) all
calls have returned, no key is held twice and the number of keys held is at
most `N`. -/
theorem capacity_bound (N : Int) (h0 : 0 ≤ N) (h1 : N ≤ INT_MAX) (cs : List (Call K V))
    (n : Nat) :
    ∃ s, runFresh N (cs.take n) = some s ∧ (keys s).Nodup ∧ ((size s : Nat) : Int) ≤ N ∧
      (entries s).length = size s := by
  have hmin : INT_MIN ≤ N := by unfold INT_MIN; omega
  obtain ⟨s, l, e, hI, _, hc⟩ := runFresh_sim (K := K) (V := V) N hmin h1 (cs.take n)
  refine ⟨s, e, hI.mapNodup, ?_, hI.entries_length⟩
  have := hI.bound
  rw [hc] at this
  show ((s.nodeMap_.length : Nat) : Int) ≤ N
  rw [hI.size_eq]
  omega

/-- C5: in every reachable state, for every key absent from the cache (not in
the index or, which is the same there, not in the recency ordering),
`get(k, out)` returns false, leaves `out` as it was and leaves the whole state
(index, nodes and recency ordering) unchanged. -/
theorem get_absent (s : LruCache K V) (hr : Reachable s) (k : K) (out : V)
    (hk : k ∉ keys s ∨ k ∉ (entries s).map (fun e => e.1)) :
    get s k out = some (s, false, out) := by
  obtain ⟨l, hI⟩ := hr.inv
  rcases hk with hk | hk
  · have hf := mapFind_eq_none_of_not_mem_keys hk
    unfold get
    rw [hf]
  · apply hI.get_of_specFind_none
    apply specFind_of_forall_ne
    intro e he hek
    exact hk (List.mem_map.2 ⟨e, he, hek⟩)

/-- C9: for every capacity `N ≤ 0` that is a value of `int` and every finite
sequence of calls on a cache constructed with capacity `N`, after each call the
cache holds no entry, every two-argument `get` returns false without touching
`out` or the state, and the one-argument `get` returns the default value. -/
theorem nonpositive_capacity_stays_empty (N : Int) (h0 : INT_MIN ≤ N) (h1 : N ≤ 0)
    (cs : List (Call K V)) (n : Nat) :
    ∃ s, runFresh N (cs.take n) = some s ∧ entries s = [] ∧ keys s = [] ∧ size s = 0 ∧
      (∀ (k : K) (out : V), get s k out = some (s, false, out)) ∧
      (∀ k : K, get1 s k = some (s, default)) := by
  have hmax : N ≤ INT_MAX := by unfold INT_MAX; omega
  obtain ⟨s, l, e, hI, _, hc⟩ := runFresh_sim (K := K) (V := V) N h0 hmax (cs.take n)
  have hl : l = [] := by
    have := hI.bound
    rw [hc] at this
    apply List.eq_nil_of_length_eq_zero
    omega
  subst hl
  have hm : s.nodeMap_ = [] := List.eq_nil_of_length_eq_zero hI.size_eq
  have hg : ∀ (k : K) (out : V), get s k out = some (s, false, out) := by
    intro k out
    simp [get, hm, mapFind]
  refine ⟨s, e, ?_, ?_, ?_, hg, ?_⟩
  · rw [hI.entries_eq]; rfl
  · simp [keys, hm]
  · simp [size, hm]
  · intro k
    rw [get1_eq, hg]
    rfl

/-- C4: in every reachable state, for every key `k` present with stored value
`v`, `get(k, out)` returns true with `out = v`; the index (hence the set of keys
and the size), the capacity and the sentinels are untouched, every node keeps
its key, value and access count, every key keeps its stored value, and the
recency ordering changes only by moving the entry of `k` from its place to the
tail end, the other entries keeping their relative order. -/
theorem get_present (s : LruCache K V) (hr : Reachable s) (k : K) (v out : V)
    (hk : stored s k = some v) :
    ∃ h1 E1 E2, get s k out = some ({ s with heap := h1 }, true, v) ∧
      SameData s.heap h1 ∧
      keys { s with heap := h1 } = keys s ∧ size { s with heap := h1 } = size s ∧
      (∀ k1, stored { s with heap := h1 } k1 = stored s k1) ∧
      entries s = E1 ++ (k, v) :: E2 ∧
      entries { s with heap := h1 } = E1 ++ E2 ++ [(k, v)] := by
  obtain ⟨l, hI⟩ := hr.inv
  cases hf : mapFind s.nodeMap_ k with
  | none => simp [stored, hf] at hk
  | some a =>
    obtain ⟨h1, l1, w, E1, E2, hw, e, d1, _, hE, _, _, hE3⟩ := get_hit hI hf out
    have hvw : w = v := by
      simp only [stored, hf, Option.some_bind] at hk
      rw [hw] at hk
      exact Option.some.inj hk
    subst hvw
    exact ⟨h1, E1, E2, e, d1, rfl, rfl, stored_congr d1, hE, hE3⟩

/-- C7: in every reachable state, for every key `k` present (with stored value
`v`), `remove(k)` returns a state in which `get(k, out)` returns false and `k`
is not in the index, the number of held keys is one less than before, and the
recency ordering is the old one without the entry of `k`: every other entry is
still there with its value, in the same relative order. -/
theorem remove_present (s : LruCache K V) (hr : Reachable s) (k : K) (v : V)
    (hk : stored s k = some v) :
    ∃ s1 E1 E2, remove s k = some s1 ∧
      (∀ out, get s1 k out = some (s1, false, out)) ∧ k ∉ keys s1 ∧
      size s1 + 1 = size s ∧
      entries s = E1 ++ (k, v) :: E2 ∧ entries s1 = E1 ++ E2 ∧
      (∀ k1, k1 ≠ k → stored s1 k1 = stored s k1) := by
  obtain ⟨l, hI⟩ := hr.inv
  cases hf : mapFind s.nodeMap_ k with
  | none => simp [stored, hf] at hk
  | some a =>
    obtain ⟨h1, l1, w, E1, E2, hw, e, d1, hI1, hE, hE1, hE2, hE3, hsz⟩ := remove_hit hI hf
    have hvw : w = v := by
      simp only [stored, hf, Option.some_bind] at hk
      rw [hw] at hk
      exact Option.some.inj hk
    subst hvw
    have hnone : specFind (entries { s with heap := h1, nodeMap_ := mapErase s.nodeMap_ k }) k
        = none := by
      rw [hE3]
      apply specFind_of_forall_ne
      intro x hx
      rcases List.mem_append.1 hx with h | h
      · exact hE1 x h
      · exact hE2 x h
    refine ⟨_, E1, E2, e, fun out => hI1.get_of_specFind_none hnone out,
      not_mem_keys_of_mapFind_none (hI1.mapFind_none_of_specFind hnone), hsz, hE, hE3, ?_⟩
    intro k1 hne
    rw [hI1.stored_eq, hI.stored_eq, hE3, hE, ← dropKey_split hE1 hE2 (v := w),
      specFind_dropKey_ne hne]

/-- C8: in every reachable state, `remove(k)` for a key absent from the cache
returns the state unchanged (index, nodes and recency ordering), and for any
key `remove(k)` applied twice gives the state that `remove(k)` applied once
gives. -/
theorem remove_absent_idempotent (s : LruCache K V) (hr : Reachable s) (k : K) :
    (k ∉ keys s → remove s k = some s) ∧
      ∃ s1, remove s k = some s1 ∧ remove s1 k = some s1 := by
  obtain ⟨l, hI⟩ := hr.inv
  constructor
  · intro hk
    simp [remove, mapFind_eq_none_of_not_mem_keys hk]
  · obtain ⟨h1, l1, e, hI1, hE, _⟩ := remove_sim hI k
    refine ⟨_, e, ?_⟩
    have hnone : mapFind (mapErase s.nodeMap_ k) k = none := by
      cases hq : mapFind (mapErase s.nodeMap_ k) k with
      | none => rfl
      | some b => exact absurd rfl (mem_mapErase.1 (mapFind_some hq)).2
    simp [remove, hnone]

/-- C10: in every reachable state the one-argument `get(k)` returns and leaves
the cache in the state in which the two-argument `get(k, out)` leaves it,
whatever `out` is.  When `k` is present with stored value `v`, both forms
yield `v` (the two-argument one with the flag true), no node changes its key,
value or access count, the index is untouched, and `k` is promoted: its entry
moves from its place in the recency ordering to the tail end, the other entries
keeping their order.  When `k` is absent, `get(k)` yields the default value of
`V`, the two-argument form yields false with `out` untouched, and the state is
unchanged. -/
theorem get1_agrees_with_get (s : LruCache K V) (hr : Reachable s) (k : K) :
    (∃ r, get1 s k = some r) ∧
      (∀ out : V, (get1 s k).map (fun r => r.1) = (get s k out).map (fun r => r.1)) ∧
      (∀ v, stored s k = some v →
        ∃ h1 E1 E2, get1 s k = some ({ s with heap := h1 }, v) ∧
          (∀ out, get s k out = some ({ s with heap := h1 }, true, v)) ∧
          SameData s.heap h1 ∧
          entries s = E1 ++ (k, v) :: E2 ∧
          entries { s with heap := h1 } = E1 ++ E2 ++ [(k, v)] ∧
          entries { s with heap := h1 } = dropKey (entries s) k ++ [(k, v)] ∧
          (entries { s with heap := h1 }).getLast? = some (k, v)) ∧
      (k ∉ keys s →
        get1 s k = some (s, default) ∧ ∀ out, get s k out = some (s, false, out)) := by
  obtain ⟨l, hI⟩ := hr.inv
  obtain ⟨h1, l1, e, _, _, _⟩ := get_sim hI k (default : V)
  refine ⟨⟨_, by rw [get1_eq, e]; rfl⟩, ?_, ?_, ?_⟩
  · intro out
    rw [get1_eq, Option.map_map]
    exact get_state_indep s k default out
  · intro v hv
    cases hf : mapFind s.nodeMap_ k with
    | none => simp [stored, hf] at hv
    | some a =>
      obtain ⟨h2, _, w, E1, E2, hw, e2, d2, _, hE, hE1, hE2, hE3⟩ :=
        get_hit hI hf (default : V)
      have hvw : w = v := by
        simp only [stored, hf, Option.some_bind] at hv
        rw [hw] at hv
        exact Option.some.inj hv
      subst hvw
      refine ⟨h2, E1, E2, by rw [get1_eq, e2]; rfl, ?_, d2, hE, hE3, ?_, ?_⟩
      · intro out
        have : get s k out = get s k default := by simp only [get, hf]
        rw [this, e2]
      · rw [hE3, hE, dropKey_split hE1 hE2]
      · rw [hE3]
        simp
  · intro hk
    have hm : ∀ out, get s k out = some (s, false, out) := fun out => get_miss s k out hk
    refine ⟨?_, hm⟩
    rw [get1_eq, hm]
    rfl

/-- C6: in every reachable state of a cache of capacity at least 1, for every
key `k` and values `v1`, `v2`, both calls of `set(k, v1); set(k, v2)` return,
after them `get(k, out)` returns true with `out = v2`, the one-argument
`get(k)` returns `v2`, and the cache holds exactly one entry for `k`: `k` occurs
once in the index and once in the recency ordering. -/
theorem set_twice_last_wins (s : LruCache K V) (hr : Reachable s) (hc : 1 ≤ s.capacity_)
    (k : K) (v1 v2 : V) :
    ∃ s1 s2, set s k v1 = some s1 ∧ set s1 k v2 = some s2 ∧
      (∀ out, ∃ s3, get s2 k out = some (s3, true, v2)) ∧
      (∃ s3, get1 s2 k = some (s3, v2)) ∧
      (keys s2).count k = 1 ∧ ((entries s2).map (fun e => e.1)).count k = 1 := by
  obtain ⟨l, hI⟩ := hr.inv
  obtain ⟨s1, l1, e1, hI1, _, hc1⟩ := set_sim hI k v1
  obtain ⟨s2, l2, e2, hI2, hE2, _⟩ := set_sim hI1 k v2
  have hf : specFind (entries s2) k = some v2 := by
    rw [hE2]
    exact specFind_specSet_self (by rw [hc1]; omega) k v2
  refine ⟨s1, s2, e1, e2, ?_, ?_, hI2.count_keys_of_specFind hf⟩
  · intro out
    obtain ⟨h3, _, e3, _, _, _⟩ := hI2.get_of_specFind hf out
    exact ⟨_, e3⟩
  · obtain ⟨h3, _, e3, _, _, _⟩ := hI2.get_of_specFind hf (default : V)
    exact ⟨_, by rw [get1_eq, e3]; rfl⟩

/-- C2: for every capacity `N ≥ 1` that is a value of `int` and every list of
`N + 1` associations with pairwise distinct keys, calling `set` on them in
order on a freshly constructed cache of capacity `N` returns a state whose
recency ordering is the last `N` associations in order: the first key is absent
(`get` on it returns false and it is not in the index) and each of the other
`N` keys is present with the value it was set to. -/
theorem eviction_order (N : Int) (h1 : 1 ≤ N) (hN : N ≤ INT_MAX) (k0 : K) (v0 : V)
    (rest : List (K × V)) (hlen : (rest.length : Int) = N)
    (hnd : (k0 :: rest.map (fun e => e.1)).Nodup) :
    ∃ s, runFresh N (((k0, v0) :: rest).map (fun e => Call.set e.1 e.2)) = some s ∧
      entries s = rest ∧
      (∀ out, get s k0 out = some (s, false, out)) ∧ k0 ∉ keys s ∧
      (∀ e ∈ rest, ∀ out, ∃ s1, get s e.1 out = some (s1, true, e.2)) := by
  have hmin : INT_MIN ≤ N := by unfold INT_MIN; omega
  obtain ⟨s, l, e, hI, hE, _⟩ := runFresh_sim (K := K) (V := V) N hmin hN
    (((k0, v0) :: rest).map (fun e => Call.set e.1 e.2))
  have hE1 : entries s = rest := by
    rw [hE, ← hlen]
    have hpos : 0 < rest.length := by omega
    rw [specRun_sets hpos ((k0, v0) :: rest) [] (by simpa using hnd) (by simp)]
    simp
  have hk0 : specFind (entries s) k0 = none := by
    rw [hE1]
    apply specFind_of_forall_ne
    intro x hx hxk
    exact (List.nodup_cons.1 hnd).1 (List.mem_map.2 ⟨x, hx, hxk⟩)
  refine ⟨s, e, hE1, fun out => hI.get_of_specFind_none hk0 out,
    not_mem_keys_of_mapFind_none (hI.mapFind_none_of_specFind hk0), ?_⟩
  intro x hx out
  have hf : specFind (entries s) x.1 = some x.2 := by
    rw [hE1]
    exact specFind_of_mem (List.nodup_cons.1 hnd).2 hx
  obtain ⟨h3, _, e3, _, _, _⟩ := hI.get_of_specFind hf out
  exact ⟨_, e3⟩

/-- C3: in every reachable state of a cache of capacity at least 2 that is full,
whose least recently used key is `A` and whose next one is `B`, `get(A, out)`
returns true and a following `set(C, v)` for a key `C` not in the cache evicts
`B`, not `A`: afterwards `A` and `C` are present with their values, `B` is
absent, and the recency ordering is the old one without its first two entries,
followed by the entries of `A` and `C`. -/
theorem promotion_protects (s : LruCache K V) (hr : Reachable s) (hc : 2 ≤ s.capacity_)
    (A B C : K) (va vb v out : V) (rest : List (K × V))
    (hE : entries s = (A, va) :: (B, vb) :: rest)
    (hfull : ((size s : Nat) : Int) = s.capacity_) (hC : C ∉ keys s) :
    ∃ s1 s2, get s A out = some (s1, true, va) ∧ set s1 C v = some s2 ∧
      entries s2 = rest ++ [(A, va), (C, v)] ∧
      stored s2 A = some va ∧ stored s2 C = some v ∧
      stored s2 B = none ∧ B ∉ keys s2 ∧ (∀ o, get s2 B o = some (s2, false, o)) := by
  obtain ⟨l, hI⟩ := hr.inv
  have hnd := hI.entries_keys_nodup
  rw [hE] at hnd
  simp only [List.map_cons, List.nodup_cons, List.mem_cons, List.mem_map, not_or, not_exists,
    not_and] at hnd
  obtain ⟨⟨hAB, hAr⟩, hBr, _⟩ := hnd
  have hCall := hI.specFind_none (mapFind_eq_none_of_not_mem_keys hC)
  rw [hE] at hCall
  have hrA : ∀ e ∈ rest, e.1 ≠ A := fun e he h => hAr e he h
  have hrB : ∀ e ∈ rest, e.1 ≠ B := fun e he h => hBr e he h
  have hrC : ∀ e ∈ rest, e.1 ≠ C := fun e he => hCall e (by simp [he])
  have hAC : A ≠ C := hCall (A, va) (by simp)
  have hBC : B ≠ C := hCall (B, vb) (by simp)
  have hfA : specFind (entries s) A = some va := by
    rw [hE]
    simp [specFind]
  obtain ⟨h1, l1, e1, hI1, hE1, _⟩ := hI.get_of_specFind hfA out
  have hE1a : entries { s with heap := h1 } = (B, vb) :: rest ++ [(A, va)] := by
    rw [hE1, hE]
    have : dropKey ((A, va) :: (B, vb) :: rest) A = (B, vb) :: rest := by
      have hB : (B, vb).1 ≠ A := fun h => hAB h.symm
      simp only [dropKey, if_true, if_neg hB]
      rw [dropKey_of_forall_ne hrA]
    rw [this]
  obtain ⟨s2, l2, e2, hI2, hE2, _⟩ := set_sim hI1 C v
  have hlenE : ((entries s).length : Int) = s.capacity_ := by
    rw [hI.entries_length]
    exact hfull
  have hE2a : entries s2 = rest ++ [(A, va), (C, v)] := by
    rw [hE2, hE1a]
    have hc0 : ¬ (s.capacity_ ≤ 0) := by omega
    have hfC : specFind ((B, vb) :: rest ++ [(A, va)]) C = none := by
      apply specFind_of_forall_ne
      intro x hx
      simp only [List.cons_append, List.mem_cons, List.mem_append, List.mem_singleton,
        List.not_mem_nil, or_false] at hx
      rcases hx with h | h | h
      · rw [h]; exact hBC
      · exact hrC x h
      · rw [h]; exact hAC
    have hl : s.capacity_ ≤ (((B, vb) :: rest ++ [(A, va)]).length : Int) := by
      rw [hE] at hlenE
      simp only [List.length_cons, List.cons_append, List.length_append, List.length_nil]
        at hlenE ⊢
      omega
    show specSet s.capacity_ _ C v = _
    simp only [specSet, hc0, if_false, hfC, hl, if_true]
    simp
  refine ⟨_, s2, e1, e2, hE2a, ?_, ?_, ?_⟩
  · rw [hI2.stored_eq, hE2a]
    exact specFind_split hrA
  · rw [hI2.stored_eq, hE2a]
    have : rest ++ [(A, va), (C, v)] = (rest ++ [(A, va)]) ++ (C, v) :: [] := by simp
    rw [this]
    apply specFind_split
    intro x hx
    rcases List.mem_append.1 hx with h | h
    · exact hrC x h
    · rw [List.mem_singleton.1 h]; exact hAC
  · have hnone : specFind (entries s2) B = none := by
      rw [hE2a]
      apply specFind_of_forall_ne
      intro x hx
      simp only [List.mem_append, List.mem_cons, List.mem_singleton, List.not_mem_nil,
        or_false] at hx
      rcases hx with h | h | h
      · exact hrB x h
      · rw [h]; exact hAB
      · rw [h]; exact fun h => hBC h.symm
    refine ⟨by rw [hI2.stored_eq, hnone],
      not_mem_keys_of_mapFind_none (hI2.mapFind_none_of_specFind hnone),
      fun o => hI2.get_of_specFind_none hnone o⟩

/-- C12: in every reachable state of a cache of capacity `N ≥ 1`, for every key
`k` absent from it, `set(k, v)` returns a state whose recency ordering is the
old one, without its first entry exactly when the old size was at least `N`,
followed by `(k, v)`: no other entry is removed, changed or moved.  In
particular, `set` on `m ≤ N` associations with pairwise distinct keys on a
fresh cache of capacity `N` evicts nothing and leaves them all in the order of
the calls. -/
theorem set_absent_appends (s : LruCache K V) (hr : Reachable s) (hc : 1 ≤ s.capacity_)
    (k : K) (v : V) (hk : k ∉ keys s) (N : Int) (h1 : 1 ≤ N) (hN : N ≤ INT_MAX)
    (kvs : List (K × V)) (hlen : (kvs.length : Int) ≤ N)
    (hnd : (kvs.map (fun e => e.1)).Nodup) :
    (∃ s1, set s k v = some s1 ∧
      entries s1 = (if s.capacity_ ≤ ((size s : Nat) : Int) then (entries s).drop 1
        else entries s) ++ [(k, v)]) ∧
      ∃ s2, runFresh N (kvs.map (fun e => Call.set e.1 e.2)) = some s2 ∧ entries s2 = kvs := by
  constructor
  · obtain ⟨l, hI⟩ := hr.inv
    obtain ⟨s1, l1, e1, _, hE1, _⟩ := set_sim hI k v
    refine ⟨s1, e1, ?_⟩
    have hc0 : ¬ s.capacity_ ≤ 0 := by omega
    have hsf : specFind (entries s) k = none :=
      specFind_of_forall_ne (hI.specFind_none (mapFind_eq_none_of_not_mem_keys hk))
    rw [hE1]
    simp only [specSet, hc0, if_false, hsf, hI.entries_length]
    rfl
  · have hmin : INT_MIN ≤ N := by unfold INT_MIN; omega
    obtain ⟨s2, l2, e2, _, hE2, _⟩ := runFresh_sim (K := K) (V := V) N hmin hN
      (kvs.map (fun e => Call.set e.1 e.2))
    refine ⟨s2, e2, ?_⟩
    lift N to ℕ using (by omega : 0 ≤ N)
    have hpos : 0 < N := by omega
    have hl : kvs.length ≤ N := by omega
    rw [hE2, specRun_sets hpos kvs [] (by simpa using hnd) (by simp)]
    have : ([] ++ kvs).length - N = 0 := by simp; omega
    rw [this]
    simp

/-- C13: in every reachable state of a cache of capacity at least 1, for every
key `k` present (with stored value `v0`), `set(k, v)` returns a state that
differs only in the value of the node of `k`: the index (hence the set of keys
and the size), every link, key and access count, the nodes between the
sentinels and their order are the same, every other key keeps its value, and
the recency ordering is the old one with `v` in place of `v0` at the position
of `k`; nothing is promoted or evicted. -/
theorem set_present_in_place (s : LruCache K V) (hr : Reachable s) (hc : 1 ≤ s.capacity_)
    (k : K) (v0 v : V) (hk : stored s k = some v0) :
    ∃ h1 E1 E2, set s k v = some { s with heap := h1 } ∧
      keys { s with heap := h1 } = keys s ∧ size { s with heap := h1 } = size s ∧
      order { s with heap := h1 } = order s ∧
      (∀ b, nextOf h1 b = nextOf s.heap b ∧ prevOf h1 b = prevOf s.heap b ∧
        keyOf h1 b = keyOf s.heap b ∧ countOf h1 b = countOf s.heap b) ∧
      stored { s with heap := h1 } k = some v ∧
      (∀ k1, k1 ≠ k → stored { s with heap := h1 } k1 = stored s k1) ∧
      entries s = E1 ++ (k, v0) :: E2 ∧
      entries { s with heap := h1 } = E1 ++ (k, v) :: E2 := by
  obtain ⟨l, hI⟩ := hr.inv
  cases hf : mapFind s.nodeMap_ k with
  | none => simp [stored, hf] at hk
  | some a =>
    obtain ⟨h1, w, E1, E2, hw, e, _, _, hkk, hcc, hn, hp, hI1, hE, hE1, hE2, hE3⟩ :=
      set_hit hI (by omega) hf v
    have hvw : w = v0 := by
      simp only [stored, hf, Option.some_bind] at hk
      rw [hw] at hk
      exact Option.some.inj hk
    subst hvw
    refine ⟨h1, E1, E2, e, rfl, rfl, ?_, fun b => ⟨hn b, hp b, hkk b, hcc b⟩, ?_, ?_, hE, hE3⟩
    · rw [order_eq hI1.list, order_eq hI.list]
    · rw [hI1.stored_eq, hE3]
      exact specFind_split hE1
    · intro k1 hne
      rw [hI1.stored_eq, hI.stored_eq, hE3, hE]
      exact specFind_split_ne v w hne

/-- C14: for every capacity `N ≥ 1` that is a value of `int` and every finite
sequence of calls on a fresh cache, number the calls from 0 and let the last
touch of a key be the number of the most recent call that inserted it as a new
key or read it successfully with either form of `get` (overwriting `set` calls
and `remove` do not count).  After each call the recency ordering lists the
held keys in strictly increasing order of last touch from head to tail; so the
key next to the head has the oldest last touch, and it is the one that a `set`
of an absent key on the full cache evicts. -/
theorem recency_sorted_by_last_touch (N : Int) (h1 : 1 ≤ N) (hN : N ≤ INT_MAX)
    (cs : List (Call K V)) (n : Nat) :
    ∃ s t, runTouchFresh N (cs.take n) = some (s, t) ∧ runFresh N (cs.take n) = some s ∧
      ((entries s).map (fun e => e.1)).Pairwise (TouchedBefore t) ∧
      (∀ k0 rest, (entries s).map (fun e => e.1) = k0 :: rest →
        ∀ k ∈ rest, TouchedBefore t k0 k) ∧
      (∀ (k : K) (v : V), k ∉ keys s → N ≤ ((size s : Nat) : Int) →
        ∃ s1, set s k v = some s1 ∧ entries s1 = (entries s).drop 1 ++ [(k, v)]) := by
  have hmin : INT_MIN ≤ N := by unfold INT_MIN; omega
  obtain ⟨s0, e0, hI0, hc0, hE0⟩ := new_inv (K := K) (V := V) N hmin hN
  have h0 : TouchSorted 0 ((entries s0).map (fun e => e.1)) (fun _ => none) := by
    rw [hE0]
    exact ⟨List.Pairwise.nil, fun k hk => by simp at hk⟩
  obtain ⟨s, t, e1, e2, hT⟩ := runTouch_sim (cs.take n) hI0 h0
  obtain ⟨s2, l, e3, hI, _, hc⟩ := run_sim (cs.take n) hI0
  rw [e2] at e3
  have hs : s = s2 := Option.some.inj e3
  subst hs
  refine ⟨s, t, by simp [runTouchFresh, e0, e1], by simp [runFresh, e0, e2], hT.1, ?_, ?_⟩
  · intro k0 rest hE k hk
    have := hT.1
    rw [hE] at this
    exact (List.pairwise_cons.1 this).1 k hk
  · intro k v hk hfull
    obtain ⟨s1, l1, e4, _, hE1, _⟩ := set_sim hI k v
    refine ⟨s1, e4, ?_⟩
    have hcap : s.capacity_ = N := hc.trans hc0
    have hn0 : ¬ s.capacity_ ≤ 0 := by omega
    have hsf : specFind (entries s) k = none :=
      specFind_of_forall_ne (hI.specFind_none (mapFind_eq_none_of_not_mem_keys hk))
    have hfull1 : s.capacity_ ≤ (s.nodeMap_.length : Int) := by
      rw [hcap]
      exact hfull
    rw [hE1]
    simp only [specSet, hn0, if_false, hsf, hI.entries_length, hfull1, if_true]

/-- C15: for every capacity that is a value of `int` and every finite sequence
of calls on a fresh cache, after each call the nodes strictly between the
sentinels and the index agree: no node and no key occurs twice in the ordering,
every node of the ordering carries an entry, a key is in the index exactly when
it is in the ordering, both have the same number of elements, the index has no
key twice, it maps each of its keys to a node of the ordering that carries this
key, and every node of the ordering is the one the index holds for its key. -/
theorem index_agrees_with_ordering (N : Int) (h0 : INT_MIN ≤ N) (h1 : N ≤ INT_MAX)
    (cs : List (Call K V)) (n : Nat) :
    ∃ s, runFresh N (cs.take n) = some s ∧
      (order s).Nodup ∧ ((entries s).map (fun e => e.1)).Nodup ∧
      (entries s).length = (order s).length ∧
      (∀ k, k ∈ keys s ↔ k ∈ (entries s).map (fun e => e.1)) ∧
      size s = (order s).length ∧ (keys s).Nodup ∧
      (∀ k a, mapFind s.nodeMap_ k = some a → a ∈ order s ∧ keyOf s.heap a = some k) ∧
      (∀ a ∈ order s, ∃ k, keyOf s.heap a = some k ∧ mapFind s.nodeMap_ k = some a) := by
  obtain ⟨s, l, e, hI, _, _⟩ := runFresh_sim (K := K) (V := V) N h0 h1 (cs.take n)
  have ho : order s = l := order_eq hI.list
  have hnd : l.Nodup := (List.nodup_append.1 (List.nodup_cons.1 hI.list.nodup).2).1
  refine ⟨s, e, ?_, hI.entries_keys_nodup, ?_, ?_, ?_, hI.mapNodup, ?_, ?_⟩
  · rw [ho]; exact hnd
  · rw [ho, hI.entries_eq]
    exact length_filterMap_entryOf (fun b hb => hI.addr_lt_length hb)
  · intro k
    constructor
    · intro hk
      obtain ⟨x, hx, hxk⟩ := List.mem_map.1 hk
      have hxk1 : x.1 = k := hxk
      have hm : (k, x.2) ∈ s.nodeMap_ := by rw [← hxk1]; exact hx
      obtain ⟨v, hv⟩ := hI.specFind_of_mapFind (mapFind_of_mem hI.mapNodup hm)
      exact List.mem_map.2 ⟨(k, v), specFind_some_mem hv, rfl⟩
    · intro hk
      by_contra hno
      obtain ⟨x, hx, hxk⟩ := List.mem_map.1 hk
      exact hI.specFind_none (mapFind_eq_none_of_not_mem_keys hno) x hx hxk
  · rw [ho]; exact hI.size_eq
  · intro k a hf
    rw [ho]
    exact hI.find_mem hf
  · intro a ha
    rw [ho] at ha
    obtain ⟨k, hk⟩ := keyOf_isSome_of_lt (hI.addr_lt_length ha)
    exact ⟨k, hk, hI.find_of_mem ha hk⟩

/-- C16, as the code has it: for every capacity `N` that is a value of `int` and
every finite sequence of calls on a fresh cache, after construction and after
each call the size of the index is at most `max N 0`: at most `N` when
`N ≥ 0`, and 0 when `N` is negative, where it exceeds the capacity. -/
theorem size_le_capacity_or_empty (N : Int) (h0 : INT_MIN ≤ N) (h1 : N ≤ INT_MAX)
    (cs : List (Call K V)) (n : Nat) :
    ∃ s, runFresh N (cs.take n) = some s ∧ s.capacity_ = N ∧
      ((size s : Nat) : Int) ≤ max N 0 ∧ (0 ≤ N → ((size s : Nat) : Int) ≤ N) ∧
      (N < 0 → size s = 0 ∧ ¬ ((size s : Nat) : Int) ≤ N) := by
  obtain ⟨s, l, e, hI, _, hc⟩ := runFresh_sim (K := K) (V := V) N h0 h1 (cs.take n)
  have hb : ((size s : Nat) : Int) ≤ max N 0 := by
    have := hI.bound
    rw [hc] at this
    show ((s.nodeMap_.length : Nat) : Int) ≤ max N 0
    rw [hI.size_eq]
    exact this
  refine ⟨s, e, hc, hb, fun h => by omega, fun h => ?_⟩
  have : size s = 0 := by omega
  exact ⟨this, by rw [this]; omega⟩

/-- C17, as the code has it: in every state and for every key, `set` tests
`capacity_` before it takes the mutex, returns without ever taking it when the
capacity is not positive, and otherwise takes it right after the test and holds
it until it returns; the two-argument `get` and `remove` take the mutex first
and hold it until they return; the one-argument `get` takes no mutex itself but
initialises and returns its local value around the two-argument `get`, which
holds the mutex for its own duration.  In all four the index and the list are
touched only while the mutex is held, and the mutex is free at the return. -/
theorem mutex_discipline (s : LruCache K V) (key : K) :
    (s.capacity_ ≤ 0 → setEvents s key = [Event.testCapacity]) ∧
      (0 < s.capacity_ → ∃ body, setEvents s key
          = Event.testCapacity :: Event.acquire :: (body ++ [Event.release]) ∧
        Event.acquire ∉ body ∧ Event.release ∉ body) ∧
      lockedThroughout (getEvents s key) = true ∧
      lockedThroughout (removeEvents s key) = true ∧
      get1Events s key = Event.initValue :: (getEvents s key ++ [Event.returnValue]) ∧
      wellLocked false (setEvents s key) = true ∧ wellLocked false (getEvents s key) = true ∧
      wellLocked false (get1Events s key) = true ∧
      wellLocked false (removeEvents s key) = true := by
  refine ⟨?_, ?_, ?_, ?_, rfl, ?_, ?_, ?_, ?_⟩
  · intro h
    simp [setEvents, h]
  · intro h
    have h0 : ¬ s.capacity_ ≤ 0 := by omega
    cases hf : mapFind s.nodeMap_ key with
    | none =>
      exact ⟨[Event.find, Event.addNewNode], by simp [setEvents, h0, hf], by decide, by decide⟩
    | some a =>
      exact ⟨[Event.find, Event.updateExisitingNode], by simp [setEvents, h0, hf], by decide,
        by decide⟩
  · unfold getEvents
    cases mapFind s.nodeMap_ key <;> rfl
  · unfold removeEvents
    cases mapFind s.nodeMap_ key <;> rfl
  · unfold setEvents
    by_cases h : s.capacity_ ≤ 0
    · rw [if_pos h]; rfl
    · rw [if_neg h]
      cases mapFind s.nodeMap_ key <;> rfl
  · unfold getEvents
    cases mapFind s.nodeMap_ key <;> rfl
  · unfold get1Events getEvents
    cases mapFind s.nodeMap_ key <;> rfl
  · unfold removeEvents
    cases mapFind s.nodeMap_ key <;> rfl

/-- C18: in every reachable state, (1) when `addNewNode` calls
`evictLeastRecent` (positive capacity, fullness test true) the list holds a real
entry: `dummyHead_->next_` is the first node of the ordering and is neither
sentinel, the guard of `removeNode` is true for it, `removeNode` unlinks it (its
`next_` becomes null and the ordering loses exactly it), and the key erased is
the key of that node, which the index holds and maps to that node; (2) every
node the index hands to `removeNode`, `moveToMostRecent`, `updateExisitingNode`
or `getValue` is a node of the ordering and neither sentinel; (3) every call
returns, keeps both sentinels in place and outside the ordering, and changes
neither key nor value nor access count of a sentinel (only the link fields of
the sentinels are rewritten when a neighbour is linked or unlinked). -/
theorem eviction_and_sentinels_safe (s : LruCache K V) (hr : Reachable s) :
    (0 < s.capacity_ → sizeGeCapacity s.nodeMap_.length s.capacity_ = true →
      ∃ a rest k0 h1, order s = a :: rest ∧ nextOf s.heap s.dummyHead_ = some a ∧
        a ≠ s.dummyHead_ ∧ a ≠ s.dummyTail_ ∧
        expired s [a] (prevOf s.heap a) = false ∧ (nextOf s.heap a).isSome = true ∧
        removeNode s a = some { s with heap := h1 } ∧
        order { s with heap := h1 } = rest ∧ a ∉ rest ∧ nextOf h1 a = none ∧
        keyOf h1 a = some k0 ∧ keyOf s.heap a = some k0 ∧
        mapFind s.nodeMap_ k0 = some a ∧ k0 ∈ keys s ∧
        evictLeastRecent s
          = some { s with heap := h1, nodeMap_ := mapErase s.nodeMap_ k0 }) ∧
      (∀ k a, mapFind s.nodeMap_ k = some a →
        a ∈ order s ∧ a ≠ s.dummyHead_ ∧ a ≠ s.dummyTail_) ∧
      (∀ c : Call K V, ∃ s1, step s c = some s1 ∧
        s1.dummyHead_ = s.dummyHead_ ∧ s1.dummyTail_ = s.dummyTail_ ∧
        s.dummyHead_ ∉ order s1 ∧ s.dummyTail_ ∉ order s1 ∧
        (∀ b, b = s.dummyHead_ ∨ b = s.dummyTail_ →
          keyOf s1.heap b = keyOf s.heap b ∧ valueOf s1.heap b = valueOf s.heap b ∧
          countOf s1.heap b = countOf s.heap b)) := by
  obtain ⟨l, hI⟩ := hr.inv
  obtain ⟨hhd, htl, hhl, htll⟩ := hI.sentinel_not_mem
  have ho : order s = l := order_eq hI.list
  refine ⟨?_, ?_, ?_⟩
  · intro hpos hfull
    have hle : (s.nodeMap_.length : Int) ≤ s.capacity_ := by
      have := hI.bound
      rw [hI.size_eq]
      omega
    rw [sizeGeCapacity_eq hpos hI.capRange.2 hle, decide_eq_true_eq] at hfull
    cases l with
    | nil =>
      have := hI.size_eq
      simp at this
      rw [this] at hfull
      simp at hfull
      omega
    | cons a rest =>
      have hL0 : ListInv s.heap s.dummyHead_ s.dummyTail_ ([] ++ a :: rest) := hI.list
      obtain ⟨h1, e1, d1, hL, hN, _⟩ := removeNode_spec hL0
      obtain ⟨g1, g2⟩ := guard_of_mem_list hL0
      have ham : a ∈ a :: rest := List.mem_cons_self a rest
      obtain ⟨k0, hk0⟩ := keyOf_isSome_of_lt (hI.addr_lt_length ham)
      have hk1 : keyOf h1 a = some k0 := by rw [d1.key_eq, hk0]
      have hnx : nextOf s.heap s.dummyHead_ = some a := hI.list.linked.1
      have hf := hI.find_of_mem ham hk0
      have hnd : (a :: rest).Nodup :=
        (List.nodup_append.1 (List.nodup_cons.1 hI.list.nodup).2).1
      refine ⟨a, rest, k0, h1, ho, hnx, fun e => hhd (e ▸ ham), fun e => htl (e ▸ ham), g1, g2,
        e1, order_eq (s := { s with heap := h1 }) hL, (List.nodup_cons.1 hnd).1, ?_, hk1, hk0,
        hf, List.mem_map.2 ⟨(k0, a), mapFind_some hf, rfl⟩, ?_⟩
      · rw [hN, if_pos rfl]
      · simp [evictLeastRecent, hnx, e1, hk1]
  · intro k a hf
    have ham := (hI.find_mem hf).1
    exact ⟨ho ▸ ham, fun e => hhd (e ▸ ham), fun e => htl (e ▸ ham)⟩
  · intro c
    obtain ⟨s1, l1, e, hI1, e1, e2, hd⟩ := step_frame hI c
    obtain ⟨hhd1, htl1, _, _⟩ := hI1.sentinel_not_mem
    have ho1 : order s1 = l1 := order_eq hI1.list
    refine ⟨s1, e, e1, e2, by rw [ho1, ← e1]; exact hhd1, by rw [ho1, ← e2]; exact htl1, ?_⟩
    rintro b (rfl | rfl)
    · exact hd _ hhl hhd
    · exact hd _ htll htl

/-- C19: in every reachable state and for every key, `get(k, out)` performed a
second time right after the first returns the same flag and value and leaves
the state exactly as the first call left it; and `moveToMostRecent` applied to
the node that is already next to the tail sentinel returns the state it was
given, so the recency ordering is unchanged. -/
theorem get_idempotent (s : LruCache K V) (hr : Reachable s) (k : K) (out : V) :
    (∃ s1 b v, get s k out = some (s1, b, v) ∧ get s1 k v = some (s1, b, v)) ∧
      ∀ a l0, order s = l0 ++ [a] → moveToMostRecent s a = some s := by
  obtain ⟨l, hI⟩ := hr.inv
  refine ⟨get_twice hI k out, ?_⟩
  intro a l0 ho
  rw [order_eq hI.list] at ho
  subst ho
  exact hI.promote_last

/-- C20: in every reachable state `set` gives the result it would give with the
fullness test taken on the mathematical integers; it returns at once when
`capacity_ ≤ 0`, so the test `nodeMap_.size() >= capacity_` of `addNewNode`, which `set` reaches
only for an absent key after that return was not taken, sees a capacity of at
least 1: there the conversion of `capacity_` to `size_t` keeps its value, the
size is below `2 ^ 64`, and the test equals the comparison of the integers.  A
negative capacity, which the conversion would turn into `2 ^ 64 + capacity_`,
never reaches the test. -/
theorem capacity_comparison_exact (s : LruCache K V) (hr : Reachable s) (k : K) (v : V) :
    set s k v = setExact s k v ∧ (s.capacity_ ≤ 0 → set s k v = some s) ∧
      (0 < s.capacity_ →
        (mapFind s.nodeMap_ k = none → set s k v = addNewNode s k v) ∧
        ((toSizeT s.capacity_ : Nat) : Int) = s.capacity_ ∧
        size s % 2 ^ SIZE_BITS = size s ∧
        sizeGeCapacity (size s) s.capacity_ = decide (s.capacity_ ≤ ((size s : Nat) : Int))) ∧
      ∀ c : Int, INT_MIN ≤ c → c < 0 → ((toSizeT c : Nat) : Int) = 2 ^ SIZE_BITS + c := by
  obtain ⟨l, hI⟩ := hr.inv
  refine ⟨?_, ?_, ?_, ?_⟩
  · by_cases h : s.capacity_ ≤ 0
    · simp [set, setExact, h]
    · have hle : (s.nodeMap_.length : Int) ≤ s.capacity_ := by
        have := hI.bound
        rw [hI.size_eq]
        omega
      have hsz := sizeGeCapacity_eq (by omega) hI.capRange.2 hle
      cases hf : mapFind s.nodeMap_ k with
      | some a => simp only [set, setExact, if_neg h, hf]
      | none => simp only [set, setExact, if_neg h, hf, addNewNode, addNewNodeExact, hsz]
  · intro h
    simp [set, h]
  · intro hpos
    have hc0 : ¬ s.capacity_ ≤ 0 := by omega
    have hmax := hI.capRange.2
    have hle : ((size s : Nat) : Int) ≤ s.capacity_ := by
      have := hI.bound
      show ((s.nodeMap_.length : Nat) : Int) ≤ s.capacity_
      rw [hI.size_eq]
      omega
    refine ⟨?_, ?_, ?_, sizeGeCapacity_eq hpos hmax hle⟩
    · intro hf
      simp [set, hc0, hf]
    · unfold toSizeT SIZE_BITS
      unfold INT_MAX at hmax
      rw [Int.emod_eq_of_lt (by omega) (by norm_num; omega)]
      exact Int.toNat_of_nonneg (by omega)
    · unfold SIZE_BITS
      unfold INT_MAX at hmax
      apply Nat.mod_eq_of_lt
      norm_num
      omega
  · intro c hmin hneg
    unfold toSizeT SIZE_BITS
    unfold INT_MIN at hmin
    have h1 : c % (2 : Int) ^ 64 = c + 2 ^ 64 := by
      rw [← Int.add_emod_self]
      exact Int.emod_eq_of_lt (by norm_num; omega) (by norm_num; omega)
    rw [h1, Int.toNat_of_nonneg (by norm_num; omega)]
    ring

end Claims

/-! ## The claims on examples -/

/-- The capacity bound on a cache of capacity 2 after seven mixed calls. -/
theorem capacity_bound_witness :
    (0 : Int) ≤ 2 ∧ (2 : Int) ≤ INT_MAX ∧
      ∃ s, runFresh 2 (mixedCalls.take 7) = some s ∧ (keys s).Nodup ∧
        ((size s : Nat) : Int) ≤ 2 ∧ (entries s).length = size s :=
  ⟨by decide, by decide, capacity_bound 2 (by decide) (by decide) mixedCalls 7⟩

/-- Three distinct keys set on a fresh cache of capacity 2: the first one is evicted. -/
theorem eviction_order_witness :
    (1 : Int) ≤ 2 ∧ (2 : Int) ≤ INT_MAX ∧
      ((([(2, 20), (3, 30)] : List (Nat × Nat)).length : Nat) : Int) = 2 ∧
      ((1 : Nat) :: ([(2, 20), (3, 30)] : List (Nat × Nat)).map (fun e => e.1)).Nodup ∧
      ∃ s, runFresh 2 (((1, 10) :: ([(2, 20), (3, 30)] : List (Nat × Nat))).map
          (fun e => Call.set e.1 e.2)) = some s ∧
        entries s = [(2, 20), (3, 30)] ∧
        (∀ out, get s 1 out = some (s, false, out)) ∧ 1 ∉ keys s ∧
        (∀ e ∈ ([(2, 20), (3, 30)] : List (Nat × Nat)), ∀ out,
          ∃ s1, get s e.1 out = some (s1, true, e.2)) :=
  ⟨by decide, by decide, by decide, by decide,
    eviction_order 2 (by decide) (by decide) 1 10 [(2, 20), (3, 30)] (by decide) (by decide)⟩

/-- The instance `set(1,10); set(2,20); get(1); set(3,30)` on a cache of capacity 2. -/
theorem promotion_protects_witness :
    Reachable twoEntries ∧ (2 : Int) ≤ twoEntries.capacity_ ∧
      entries twoEntries = (1, 10) :: (2, 20) :: [] ∧
      ((size twoEntries : Nat) : Int) = twoEntries.capacity_ ∧ 3 ∉ keys twoEntries ∧
      ∃ s1 s2, get twoEntries 1 0 = some (s1, true, 10) ∧ set s1 3 30 = some s2 ∧
        entries s2 = [] ++ [(1, 10), (3, 30)] ∧
        stored s2 1 = some 10 ∧ stored s2 3 = some 30 ∧
        stored s2 2 = none ∧ 2 ∉ keys s2 ∧ (∀ o, get s2 2 o = some (s2, false, o)) :=
  ⟨twoEntries_reachable, by decide, by decide, by decide, by decide,
    promotion_protects twoEntries twoEntries_reachable (by decide) 1 2 3 10 20 30 0 []
      (by decide) (by decide) (by decide)⟩

/-- A hit on key 1 of the two-entry example state. -/
theorem get_present_witness :
    Reachable twoEntries ∧ stored twoEntries 1 = some 10 ∧
      ∃ h1 E1 E2, get twoEntries 1 0 = some ({ twoEntries with heap := h1 }, true, 10) ∧
        SameData twoEntries.heap h1 ∧
        keys { twoEntries with heap := h1 } = keys twoEntries ∧
        size { twoEntries with heap := h1 } = size twoEntries ∧
        (∀ k1, stored { twoEntries with heap := h1 } k1 = stored twoEntries k1) ∧
        entries twoEntries = E1 ++ (1, 10) :: E2 ∧
        entries { twoEntries with heap := h1 } = E1 ++ E2 ++ [(1, 10)] :=
  ⟨twoEntries_reachable, by decide,
    get_present twoEntries twoEntries_reachable 1 10 0 (by decide)⟩

/-- A miss on key 7 of the two-entry example state. -/
theorem get_absent_witness :
    Reachable twoEntries ∧
      (7 ∉ keys twoEntries ∨ 7 ∉ (entries twoEntries).map (fun e => e.1)) ∧
      get twoEntries 7 0 = some (twoEntries, false, 0) :=
  ⟨twoEntries_reachable, Or.inl (by decide),
    get_absent twoEntries twoEntries_reachable 7 0 (Or.inl (by decide))⟩

/-- Two successive `set` calls on key 3 of the two-entry example state. -/
theorem set_twice_last_wins_witness :
    Reachable twoEntries ∧ (1 : Int) ≤ twoEntries.capacity_ ∧
      ∃ s1 s2, set twoEntries 3 31 = some s1 ∧ set s1 3 32 = some s2 ∧
        (∀ out, ∃ s3, get s2 3 out = some (s3, true, 32)) ∧
        (∃ s3, get1 s2 3 = some (s3, 32)) ∧
        (keys s2).count 3 = 1 ∧ ((entries s2).map (fun e => e.1)).count 3 = 1 :=
  ⟨twoEntries_reachable, by decide,
    set_twice_last_wins twoEntries twoEntries_reachable (by decide) 3 31 32⟩

/-- Removal of key 2 from the two-entry example state. -/
theorem remove_present_witness :
    Reachable twoEntries ∧ stored twoEntries 2 = some 20 ∧
      ∃ s1 E1 E2, remove twoEntries 2 = some s1 ∧
        (∀ out, get s1 2 out = some (s1, false, out)) ∧ 2 ∉ keys s1 ∧
        size s1 + 1 = size twoEntries ∧
        entries twoEntries = E1 ++ (2, 20) :: E2 ∧ entries s1 = E1 ++ E2 ∧
        (∀ k1, k1 ≠ 2 → stored s1 k1 = stored twoEntries k1) :=
  ⟨twoEntries_reachable, by decide,
    remove_present twoEntries twoEntries_reachable 2 20 (by decide)⟩

/-- Removal of the absent key 7 from the two-entry example state. -/
theorem remove_absent_idempotent_witness :
    Reachable twoEntries ∧
      ((7 ∉ keys twoEntries → remove twoEntries 7 = some twoEntries) ∧
        ∃ s1, remove twoEntries 7 = some s1 ∧ remove s1 7 = some s1) :=
  ⟨twoEntries_reachable, remove_absent_idempotent twoEntries twoEntries_reachable 7⟩

/-- A cache of capacity -3 after five mixed calls. -/
theorem nonpositive_capacity_stays_empty_witness :
    INT_MIN ≤ (-3 : Int) ∧ (-3 : Int) ≤ 0 ∧
      ∃ s, runFresh (-3) (mixedCalls.take 5) = some s ∧ entries s = [] ∧ keys s = [] ∧
        size s = 0 ∧ (∀ (k : Nat) (out : Nat), get s k out = some (s, false, out)) ∧
        (∀ k : Nat, get1 s k = some (s, default)) :=
  ⟨by decide, by decide,
    nonpositive_capacity_stays_empty (-3) (by decide) (by decide) mixedCalls 5⟩

/-- Both forms of `get` on the two-entry example state: key 1, next to the head
sentinel, is present and is promoted to the tail end; key 7 is absent. -/
theorem get1_agrees_with_get_witness :
    Reachable twoEntries ∧ stored twoEntries 1 = some 10 ∧ 7 ∉ keys twoEntries ∧
      entries twoEntries = [(1, 10), (2, 20)] ∧
      (∃ h1, get1 twoEntries 1 = some ({ twoEntries with heap := h1 }, 10) ∧
        (∀ out, get twoEntries 1 out = some ({ twoEntries with heap := h1 }, true, 10)) ∧
        entries { twoEntries with heap := h1 } = [(2, 20), (1, 10)]) ∧
      get1 twoEntries 7 = some (twoEntries, default) ∧
      (∀ out, get twoEntries 7 out = some (twoEntries, false, out)) ∧
      (∀ out : Nat, (get1 twoEntries 1).map (fun r => r.1)
        = (get twoEntries 1 out).map (fun r => r.1)) := by
  refine ⟨twoEntries_reachable, by decide, by decide, by decide, ?_, ?_, ?_, ?_⟩
  · obtain ⟨h1, _, _, e1, e2, _, _, _, hd, _⟩ :=
      (get1_agrees_with_get twoEntries twoEntries_reachable 1).2.2.1 10 (by decide)
    exact ⟨h1, e1, e2, hd.trans (by decide)⟩
  · exact ((get1_agrees_with_get twoEntries twoEntries_reachable 7).2.2.2 (by decide)).1
  · exact ((get1_agrees_with_get twoEntries twoEntries_reachable 7).2.2.2 (by decide)).2
  · exact (get1_agrees_with_get twoEntries twoEntries_reachable 1).2.1

/-- A `set` of the absent key 3 on the full two-entry example state, and two
distinct keys set on a fresh cache of capacity 2. -/
theorem set_absent_appends_witness :
    Reachable twoEntries ∧ (1 : Int) ≤ twoEntries.capacity_ ∧ 3 ∉ keys twoEntries ∧
      (1 : Int) ≤ 2 ∧ (2 : Int) ≤ INT_MAX ∧
      ((([(1, 10), (2, 20)] : List (Nat × Nat)).length : Nat) : Int) ≤ 2 ∧
      (([(1, 10), (2, 20)] : List (Nat × Nat)).map (fun e => e.1)).Nodup ∧
      ((∃ s1, set twoEntries 3 30 = some s1 ∧
        entries s1 = (if twoEntries.capacity_ ≤ ((size twoEntries : Nat) : Int)
          then (entries twoEntries).drop 1 else entries twoEntries) ++ [(3, 30)]) ∧
        ∃ s2, runFresh 2 (([(1, 10), (2, 20)] : List (Nat × Nat)).map
          (fun e => Call.set e.1 e.2)) = some s2 ∧ entries s2 = [(1, 10), (2, 20)]) :=
  ⟨twoEntries_reachable, by decide, by decide, by decide, by decide, by decide, by decide,
    set_absent_appends twoEntries twoEntries_reachable (by decide) 3 30 (by decide) 2
      (by decide) (by decide) [(1, 10), (2, 20)] (by decide) (by decide)⟩

/-- An overwriting `set` on key 1 of the two-entry example state. -/
theorem set_present_in_place_witness :
    Reachable twoEntries ∧ (1 : Int) ≤ twoEntries.capacity_ ∧ stored twoEntries 1 = some 10 ∧
      ∃ h1 E1 E2, set twoEntries 1 11 = some { twoEntries with heap := h1 } ∧
        keys { twoEntries with heap := h1 } = keys twoEntries ∧
        size { twoEntries with heap := h1 } = size twoEntries ∧
        order { twoEntries with heap := h1 } = order twoEntries ∧
        (∀ b, nextOf h1 b = nextOf twoEntries.heap b ∧ prevOf h1 b = prevOf twoEntries.heap b ∧
          keyOf h1 b = keyOf twoEntries.heap b ∧ countOf h1 b = countOf twoEntries.heap b) ∧
        stored { twoEntries with heap := h1 } 1 = some 11 ∧
        (∀ k1, k1 ≠ 1 → stored { twoEntries with heap := h1 } k1 = stored twoEntries k1) ∧
        entries twoEntries = E1 ++ (1, 10) :: E2 ∧
        entries { twoEntries with heap := h1 } = E1 ++ (1, 11) :: E2 :=
  ⟨twoEntries_reachable, by decide, by decide,
    set_present_in_place twoEntries twoEntries_reachable (by decide) 1 10 11 (by decide)⟩

/-- The last-touch order on a cache of capacity 2 after eight mixed calls. -/
theorem recency_sorted_by_last_touch_witness :
    (1 : Int) ≤ 2 ∧ (2 : Int) ≤ INT_MAX ∧
      ∃ s t, runTouchFresh 2 (mixedCalls.take 8) = some (s, t) ∧
        runFresh 2 (mixedCalls.take 8) = some s ∧
        ((entries s).map (fun e => e.1)).Pairwise (TouchedBefore t) ∧
        (∀ k0 rest, (entries s).map (fun e => e.1) = k0 :: rest →
          ∀ k ∈ rest, TouchedBefore t k0 k) ∧
        (∀ (k : Nat) (v : Nat), k ∉ keys s → (2 : Int) ≤ ((size s : Nat) : Int) →
          ∃ s1, set s k v = some s1 ∧ entries s1 = (entries s).drop 1 ++ [(k, v)]) :=
  ⟨by decide, by decide, recency_sorted_by_last_touch 2 (by decide) (by decide) mixedCalls 8⟩

/-- The agreement of index and ordering on a cache of capacity 2 after six mixed calls. -/
theorem index_agrees_with_ordering_witness :
    INT_MIN ≤ (2 : Int) ∧ (2 : Int) ≤ INT_MAX ∧
      ∃ s, runFresh 2 (mixedCalls.take 6) = some s ∧
        (order s).Nodup ∧ ((entries s).map (fun e => e.1)).Nodup ∧
        (entries s).length = (order s).length ∧
        (∀ k, k ∈ keys s ↔ k ∈ (entries s).map (fun e => e.1)) ∧
        size s = (order s).length ∧ (keys s).Nodup ∧
        (∀ k a, mapFind s.nodeMap_ k = some a → a ∈ order s ∧ keyOf s.heap a = some k) ∧
        (∀ a ∈ order s, ∃ k, keyOf s.heap a = some k ∧ mapFind s.nodeMap_ k = some a) :=
  ⟨by decide, by decide, index_agrees_with_ordering 2 (by decide) (by decide) mixedCalls 6⟩

/-- A cache constructed with capacity -1 holds 0 keys after construction and
after a `set`, and 0 is not at most -1. -/
theorem size_exceeds_negative_capacity :
    runFresh (-1) ([] : List (Call Nat Nat)) = some freshNegative ∧
      runFresh (-1) [Call.set 1 10] = some freshNegative ∧
      ¬ ((size freshNegative : Nat) : Int) ≤ freshNegative.capacity_ :=
  ⟨by decide, by decide, by decide⟩

/-- The size bound on a cache of capacity -1 after four mixed calls. -/
theorem size_le_capacity_or_empty_witness :
    INT_MIN ≤ (-1 : Int) ∧ (-1 : Int) ≤ INT_MAX ∧
      ∃ s, runFresh (-1) (mixedCalls.take 4) = some s ∧ s.capacity_ = -1 ∧
        ((size s : Nat) : Int) ≤ max (-1) 0 ∧ ((0 : Int) ≤ -1 → ((size s : Nat) : Int) ≤ -1) ∧
        ((-1 : Int) < 0 → size s = 0 ∧ ¬ ((size s : Nat) : Int) ≤ -1) :=
  ⟨by decide, by decide,
    size_le_capacity_or_empty (-1) (by decide) (by decide) mixedCalls 4⟩

/-- On a cache of capacity -1, `set` returns after the capacity test without
taking the mutex; the one-argument `get` starts by initialising its local value
and ends by returning it, outside the mutex. -/
theorem mutex_not_taken_first :
    lockedThroughout (setEvents freshNegative 1) = false ∧
      Event.acquire ∉ setEvents freshNegative 1 ∧
      lockedThroughout (get1Events twoEntries 1) = false ∧
      (get1Events twoEntries 1).head? = some Event.initValue ∧
      (get1Events twoEntries 1).getLast? = some Event.returnValue :=
  ⟨by decide, by decide, by decide, by decide, by decide⟩

/-- Eviction and the sentinels on the full two-entry example state. -/
theorem eviction_and_sentinels_safe_witness :
    Reachable twoEntries ∧
      ((0 < twoEntries.capacity_ →
        sizeGeCapacity twoEntries.nodeMap_.length twoEntries.capacity_ = true →
        ∃ a rest k0 h1, order twoEntries = a :: rest ∧
          nextOf twoEntries.heap twoEntries.dummyHead_ = some a ∧
          a ≠ twoEntries.dummyHead_ ∧ a ≠ twoEntries.dummyTail_ ∧
          expired twoEntries [a] (prevOf twoEntries.heap a) = false ∧
          (nextOf twoEntries.heap a).isSome = true ∧
          removeNode twoEntries a = some { twoEntries with heap := h1 } ∧
          order { twoEntries with heap := h1 } = rest ∧ a ∉ rest ∧ nextOf h1 a = none ∧
          keyOf h1 a = some k0 ∧ keyOf twoEntries.heap a = some k0 ∧
          mapFind twoEntries.nodeMap_ k0 = some a ∧ k0 ∈ keys twoEntries ∧
          evictLeastRecent twoEntries
            = some { twoEntries with heap := h1,
                                     nodeMap_ := mapErase twoEntries.nodeMap_ k0 }) ∧
        (∀ k a, mapFind twoEntries.nodeMap_ k = some a →
          a ∈ order twoEntries ∧ a ≠ twoEntries.dummyHead_ ∧ a ≠ twoEntries.dummyTail_) ∧
        (∀ c : Call Nat Nat, ∃ s1, step twoEntries c = some s1 ∧
          s1.dummyHead_ = twoEntries.dummyHead_ ∧ s1.dummyTail_ = twoEntries.dummyTail_ ∧
          twoEntries.dummyHead_ ∉ order s1 ∧ twoEntries.dummyTail_ ∉ order s1 ∧
          (∀ b, b = twoEntries.dummyHead_ ∨ b = twoEntries.dummyTail_ →
            keyOf s1.heap b = keyOf twoEntries.heap b ∧
            valueOf s1.heap b = valueOf twoEntries.heap b ∧
            countOf s1.heap b = countOf twoEntries.heap b))) :=
  ⟨twoEntries_reachable, eviction_and_sentinels_safe twoEntries twoEntries_reachable⟩

/-- Two successive `get` calls on key 1 of the two-entry example state. -/
theorem get_idempotent_witness :
    Reachable twoEntries ∧
      ((∃ s1 b v, get twoEntries 1 0 = some (s1, b, v) ∧ get s1 1 v = some (s1, b, v)) ∧
        ∀ a l0, order twoEntries = l0 ++ [a] → moveToMostRecent twoEntries a = some twoEntries) :=
  ⟨twoEntries_reachable, get_idempotent twoEntries twoEntries_reachable 1 0⟩

/-- The fullness test on the two-entry example state. -/
theorem capacity_comparison_exact_witness :
    Reachable twoEntries ∧
      (set twoEntries 3 30 = setExact twoEntries 3 30 ∧
        (twoEntries.capacity_ ≤ 0 → set twoEntries 3 30 = some twoEntries) ∧
        (0 < twoEntries.capacity_ →
          (mapFind twoEntries.nodeMap_ 3 = none →
            set twoEntries 3 30 = addNewNode twoEntries 3 30) ∧
          ((toSizeT twoEntries.capacity_ : Nat) : Int) = twoEntries.capacity_ ∧
          size twoEntries % 2 ^ SIZE_BITS = size twoEntries ∧
          sizeGeCapacity (size twoEntries) twoEntries.capacity_
            = decide (twoEntries.capacity_ ≤ ((size twoEntries : Nat) : Int))) ∧
        ∀ c : Int, INT_MIN ≤ c → c < 0 → ((toSizeT c : Nat) : Int) = 2 ^ SIZE_BITS + c) :=
  ⟨twoEntries_reachable, capacity_comparison_exact twoEntries twoEntries_reachable 3 30⟩

end myCache

